import Mathlib

/-!
Verification development for the home-epg channel-identity matching and EPG
consolidation engine.  Python strings are modelled as `List Char` (ASCII-level
fidelity: the character classes `\w` and `\s` and the case maps are modelled on
their ASCII behaviour, which covers every channel name the pipeline handles).
Floating-point similarity ratios are modelled exactly as fractions of natural
numbers; every comparison the code performs on them is translated to the
equivalent cross-multiplied integer comparison.
-/

namespace HomeEpg

/-- Python string: a list of characters. -/
abbrev PyStr := List Char

/-- Python `\s` / `str.strip` whitespace class (ASCII part). -/
def isPySpace (c : Char) : Bool :=
  c == ' ' || c == '\t' || c == '\n' || c == '\r' || c == '\x0b' || c == '\x0c'

/-- Python regex `\w` class (ASCII part): letters, digits, underscore. -/
def isWordChar (c : Char) : Bool :=
  c.isAlphanum || c == '_'

/-- Python `str.upper` (ASCII case map). -/
def pyUpper (cs : PyStr) : PyStr := cs.map Char.toUpper

/-- Python `str.lower` (ASCII case map). -/
def pyLower (cs : PyStr) : PyStr := cs.map Char.toLower

/-- Python `str.strip()`: drop leading and trailing whitespace. -/
def pyStrip (cs : PyStr) : PyStr :=
  ((cs.dropWhile isPySpace).reverse.dropWhile isPySpace).reverse

/-- Python `str.startswith`. -/
def pyStartsWith : PyStr → PyStr → Bool
  | _, [] => true
  | [], _ :: _ => false
  | c :: cs, p :: ps => c == p && pyStartsWith cs ps

/-- Worker for `splitWords`: accumulates the current word reversed. -/
def splitWordsGo : PyStr → PyStr → List PyStr
  | w, [] => if w.isEmpty then [] else [w.reverse]
  | w, c :: rest =>
    if isPySpace c then
      if w.isEmpty then splitWordsGo [] rest else w.reverse :: splitWordsGo [] rest
    else splitWordsGo (c :: w) rest

/-- Python `str.split()` with no argument: maximal runs of non-whitespace. -/
def splitWords (cs : PyStr) : List PyStr := splitWordsGo [] cs

/-- Join words with single spaces (Python `" ".join(ws)`). -/
def joinWords : List PyStr → PyStr
  | [] => []
  | [w] => w
  | w :: ws => w ++ ' ' :: joinWords ws

/-- `re.sub(r'\s+', ' ', s).strip()`: collapse whitespace runs to single
spaces and trim; equivalently `" ".join(s.split())`. -/
def collapseWs (cs : PyStr) : PyStr := joinWords (splitWords cs)

/-- Case-insensitively match a token (given uppercase) at the head of `cs`,
returning the remaining characters on success.  Mirrors the regex engine
consuming the token's characters under `re.IGNORECASE`. -/
def matchTok : PyStr → PyStr → Option PyStr
  | [], rest => some rest
  | _ :: _, [] => none
  | t :: ts, c :: rest => if c.toUpper == t then matchTok ts rest else none

/-- `\b` immediately after a consumed token ending in a word character:
the next character must be absent or a non-word character. -/
def boundaryAfter : PyStr → Bool
  | [] => true
  | c :: _ => !isWordChar c

/-- Quality-indicator alternation `(HD|SD|FHD|UHD|4K|HEVC|H265|H\.265)` in the
order the two normalizers write it. -/
def qualToks : List PyStr :=
  ["HD".toList, "SD".toList, "FHD".toList, "UHD".toList, "4K".toList,
   "HEVC".toList, "H265".toList, "H.265".toList]

/-- Try the quality alternatives in order at this position; each must be
followed by a `\b`.  A failed boundary falls through to the next
alternative, as the regex engine backtracks. -/
def tryQualToks : List PyStr → PyStr → Option PyStr
  | [], _ => none
  | t :: ts, cs =>
    match matchTok t cs with
    | some rest => if boundaryAfter rest then some rest else tryQualToks ts cs
    | none => tryQualToks ts cs

/-- Scanner for `re.sub(r'\b(HD|SD|FHD|UHD|4K|HEVC|H265|H\.265)\b', '', s,
flags=re.IGNORECASE)`.  `prevWord` records whether the previous character of
the original string was a word character (the `\b` before a token, which
always begins with a word character, requires it not to be).  Every quality
token ends in a word character, so after a removal scanning continues in the
`prevWord = true` state.  `fuel` only bounds the recursion and exceeds the
number of characters consumed, each step consuming at least one. -/
def remQualBGo : Nat → Bool → PyStr → PyStr
  | 0, _, cs => cs
  | _ + 1, _, [] => []
  | fuel + 1, prevWord, c :: rest =>
    if prevWord then c :: remQualBGo fuel (isWordChar c) rest
    else
      match tryQualToks qualToks (c :: rest) with
      | some rest' => remQualBGo fuel true rest'
      | none => c :: remQualBGo fuel (isWordChar c) rest

/-- Global word-boundary-delimited quality-token removal (first quality pass
of `clean_channel_name`). -/
def remQualB (cs : PyStr) : PyStr := remQualBGo cs.length false cs

/-- At a whitespace character, try to match `\s+TOKEN\b`: consume the whole
whitespace run, then a quality alternative with boundary.  (The `\s+` is
greedy; backtracking to fewer spaces cannot help because no token begins
with a space.) -/
def tryWsQualTok (cs : PyStr) : Option PyStr :=
  tryQualToks qualToks (cs.dropWhile isPySpace)

/-- Scanner for `re.sub(r'\s+(HD|SD|FHD|UHD|4K|HEVC|H265|H\.265)\b', '', s)`
used by `normalize_channel_name` (input already uppercased). -/
def remWsQualGo : Nat → PyStr → PyStr
  | 0, cs => cs
  | _ + 1, [] => []
  | fuel + 1, c :: rest =>
    if isPySpace c then
      match tryWsQualTok (c :: rest) with
      | some rest' => remWsQualGo fuel rest'
      | none => c :: remWsQualGo fuel rest
    else c :: remWsQualGo fuel rest

/-- `\s+`-anchored quality-token removal of `normalize_channel_name`. -/
def remWsQual (cs : PyStr) : PyStr := remWsQualGo cs.length cs

/-- Match a reversed token case-insensitively at the head of a reversed
string. -/
def matchTokRev : PyStr → PyStr → Option PyStr
  | [], rest => some rest
  | _ :: _, [] => none
  | t :: ts, c :: rest => if c.toUpper == t then matchTokRev ts rest else none

/-- Working on the reversed tail, try each token (reversed): the token must be
the final word, i.e. preceded by at least one whitespace character (`\s+`).
Failure of the whitespace requirement falls through to the next
alternative, as regex backtracking does. -/
def tryRevToks : List PyStr → PyStr → Option PyStr
  | [], _ => none
  | t :: ts, r =>
    match matchTokRev t.reverse r with
    | some r2 =>
      match r2 with
      | [] => tryRevToks ts r
      | c :: _ => if isPySpace c then some (r2.dropWhile isPySpace) else tryRevToks ts r
    | none => tryRevToks ts r

/-- `re.sub(r'\s+(TOK1|...)\s*$', '', s)` (with `\s*$` present iff
`allowWsAfter`): if the string ends in optional whitespace, a listed token
and at least one preceding whitespace character, drop that whole tail
(the greedy `\s+` takes the entire whitespace run); otherwise return the
string unchanged. -/
def remTrailTok (toks : List PyStr) (allowWsAfter : Bool) (cs : PyStr) : PyStr :=
  let r := cs.reverse
  let r1 := if allowWsAfter then r.dropWhile isPySpace else r
  match tryRevToks toks r1 with
  | some r3 => r3.reverse
  | none => cs

/-- `re.sub(r'\s+(HD|SD|FHD|UHD|4K)$', '', s, flags=re.IGNORECASE)`. -/
def remTrailQual (cs : PyStr) : PyStr :=
  remTrailTok ["HD".toList, "SD".toList, "FHD".toList, "UHD".toList, "4K".toList] false cs

/-- `re.sub(r'\s+(CHANNEL|TV|NETWORK|INDIA)\s*$', '', s, flags=re.IGNORECASE)`
(suffix pass of `clean_channel_name`). -/
def remTrailGenericClean (cs : PyStr) : PyStr :=
  remTrailTok ["CHANNEL".toList, "TV".toList, "NETWORK".toList, "INDIA".toList] true cs

/-- `re.sub(r'\s+(CHANNEL|TV|NETWORK)\s*$', '', s)` (suffix pass of
`normalize_channel_name`). -/
def remTrailGenericNorm (cs : PyStr) : PyStr :=
  remTrailTok ["CHANNEL".toList, "TV".toList, "NETWORK".toList] true cs

/-- `re.sub(r'[&+]', ' AND ', s)`. -/
def replaceAndPlus (cs : PyStr) : PyStr :=
  cs.flatMap (fun c => if c == '&' || c == '+' then " AND ".toList else [c])

/-- `re.sub(r'[^\w\s]', ' ', s)`. -/
def punctToSpace (cs : PyStr) : PyStr :=
  cs.map (fun c => if isWordChar c || isPySpace c then c else ' ')

/-- One step of the region-prefix loop of `clean_channel_name`:
`if name.upper().startswith(p): name = name[len(p):].strip()`. -/
def stripMark (p : PyStr) (cs : PyStr) : PyStr :=
  if pyStartsWith (pyUpper cs) p then pyStrip (cs.drop p.length) else cs

/-- The region-prefix loop of `clean_channel_name` over
`["UK:", "US:", "IN:", "CA:"]`, applied in order to the evolving name. -/
def stripRegionMarks (cs : PyStr) : PyStr :=
  stripMark "CA:".toList (stripMark "IN:".toList (stripMark "US:".toList (stripMark "UK:".toList cs)))

/-- `clean_channel_name` from `epg_matcher.py` (lines 205-229) and
`match_channels.py` (lines 196-220), which are identical. -/
def cleanChannelName (name : PyStr) : PyStr :=
  let n1 := stripRegionMarks name
  let n2 := collapseWs n1
  let n3 := remQualB n2
  let n4 := remTrailQual n3
  let n5 := remTrailGenericClean n4
  let n6 := replaceAndPlus n5
  let n7 := punctToSpace n6
  let n8 := collapseWs n7
  pyUpper (pyStrip n8)

/-- `normalize_channel_name` from `create_channel_list.py` (lines 222-235). -/
def normalizeChannelName (name : PyStr) : PyStr :=
  let n1 := pyUpper name
  let n2 := remWsQual n1
  let n3 := remTrailGenericNorm n2
  let n4 := punctToSpace n3
  collapseWs n4

end HomeEpg

namespace HomeEpg

/-!
### Similarity scorers

`find_best_match` imports `fuzz` from the `fuzzywuzzy` package (the module's
primary path; an in-file `FuzzFallback` exists only for a missing-dependency
environment and collapses all four methods into one).  The four scorers and
the `difflib.SequenceMatcher` they are built on are modelled here.  Ratios,
floats in Python, are modelled as exact fractions `num/den` of naturals;
`fuel` arguments only bound recursions and always exceed the depth needed.
The popularity-based `autojunk` heuristic of `SequenceMatcher` is included
(it is inert below 200 characters).
-/

/-- An exact non-negative fraction `num/den`, standing for a Python float. -/
structure Frac where
  num : Nat
  den : Nat
deriving DecidableEq, Repr

/-- `x < y` on fractions by cross-multiplication. -/
def fracLt (x y : Frac) : Bool := x.num * y.den < y.num * x.den

/-- A matching block `(a-index, b-index, size)` of `SequenceMatcher`. -/
structure SMBlock where
  ai : Nat
  bi : Nat
  size : Nat
deriving DecidableEq, Repr

/-- Append index `j` to the entry of character `c` (indices stay ascending). -/
def b2jInsert : List (Char × List Nat) → Char → Nat → List (Char × List Nat)
  | [], c, j => [(c, [j])]
  | (d, js) :: rest, c, j =>
    if d == c then (d, js ++ [j]) :: rest else (d, js) :: b2jInsert rest c j

/-- The `b2j` map of `SequenceMatcher`: each character of `b` to its ascending
list of indices. -/
def b2jBuild (b : PyStr) : List (Char × List Nat) :=
  b.enum.foldl (fun m p => b2jInsert m p.2 p.1) []

/-- The autojunk set: for `len(b) >= 200`, characters occurring more than
`len(b) // 100 + 1` times are dropped from `b2j` and treated as junk. -/
def smJunk (b : PyStr) : List Char :=
  if b.length < 200 then []
  else (b2jBuild b).filterMap
    (fun p => if p.2.length > b.length / 100 + 1 then some p.1 else none)

/-- `b2j` after autojunk removal. -/
def smB2j (b : PyStr) : List (Char × List Nat) :=
  if b.length < 200 then b2jBuild b
  else (b2jBuild b).filter (fun p => decide (p.2.length ≤ b.length / 100 + 1))

/-- Lookup in `b2j` (`b2j.get(elt, [])`). -/
def b2jGet (m : List (Char × List Nat)) (c : Char) : List Nat :=
  match m.find? (fun p => p.1 == c) with
  | some p => p.2
  | none => []

/-- Lookup with default in a `j2len` row (`j2len.get(j-1, 0)`). -/
def assocGetD (m : List (Nat × Nat)) (k : Nat) : Nat :=
  match m.find? (fun p => p.1 == k) with
  | some p => p.2
  | none => 0

/-- Running best of `find_longest_match`: `besti, bestj, bestsize`. -/
structure FlmBest where
  bi : Nat
  bj : Nat
  bsize : Nat
deriving DecidableEq, Repr

/-- Inner loop of `find_longest_match` over the index list of `a[i]`
(ascending, so the `continue`/`break` guards equal a range filter).
`k = j2len.get(j-1, 0) + 1`, where at `j = blo` the previous row can hold no
entry below `blo` (in Python `j-1` may even be `-1`), so `k = 1`. -/
def flmRow (j2len : List (Nat × Nat)) (blo bhi i : Nat) :
    List Nat → List (Nat × Nat) → FlmBest → List (Nat × Nat) × FlmBest
  | [], newj2len, best => (newj2len, best)
  | j :: js, newj2len, best =>
    if j < blo || bhi ≤ j then flmRow j2len blo bhi i js newj2len best
    else
      let k := if j == blo then 1 else assocGetD j2len (j - 1) + 1
      let best' := if k > best.bsize then FlmBest.mk (i + 1 - k) (j + 1 - k) k else best
      flmRow j2len blo bhi i js (newj2len ++ [(j, k)]) best'

/-- The dynamic-programming phase of `find_longest_match`. -/
def flmPhase1 (a : PyStr) (m : List (Char × List Nat)) (alo ahi blo bhi : Nat) : FlmBest :=
  ((List.range' alo (ahi - alo)).foldl
    (fun (st : List (Nat × Nat) × FlmBest) i =>
      flmRow st.1 blo bhi i (b2jGet m (a.getD i ' ')) [] st.2)
    ([], FlmBest.mk alo blo 0)).2

/-- Downward extension loop of `find_longest_match`
(`while besti > alo and bestj > blo and pred(b[bestj-1]) and
a[besti-1] == b[bestj-1]`). -/
def extLo (a b : PyStr) (pred : Char → Bool) (alo blo : Nat) : Nat → FlmBest → FlmBest
  | 0, st => st
  | fuel + 1, st =>
    if st.bi > alo && st.bj > blo && pred (b.getD (st.bj - 1) ' ') &&
        (a.getD (st.bi - 1) ' ' == b.getD (st.bj - 1) ' ') then
      extLo a b pred alo blo fuel (FlmBest.mk (st.bi - 1) (st.bj - 1) (st.bsize + 1))
    else st

/-- Upward extension loop of `find_longest_match`
(`while besti+bestsize < ahi and bestj+bestsize < bhi and
pred(b[bestj+bestsize]) and a[besti+bestsize] == b[bestj+bestsize]`). -/
def extHi (a b : PyStr) (pred : Char → Bool) (ahi bhi : Nat) : Nat → FlmBest → FlmBest
  | 0, st => st
  | fuel + 1, st =>
    if st.bi + st.bsize < ahi && st.bj + st.bsize < bhi &&
        pred (b.getD (st.bj + st.bsize) ' ') &&
        (a.getD (st.bi + st.bsize) ' ' == b.getD (st.bj + st.bsize) ' ') then
      extHi a b pred ahi bhi fuel (FlmBest.mk st.bi st.bj (st.bsize + 1))
    else st

/-- `SequenceMatcher.find_longest_match` on `a[alo:ahi]` and `b[blo:bhi]`:
the dynamic-programming phase followed by the four extension loops
(non-junk then junk, on each side). -/
def findLongestMatch (a b : PyStr) (m : List (Char × List Nat)) (junk : List Char)
    (alo ahi blo bhi : Nat) : FlmBest :=
  let st1 := flmPhase1 a m alo ahi blo bhi
  let notJ := fun c => !(junk.contains c)
  let isJ := fun c => junk.contains c
  let st2 := extLo a b notJ alo blo st1.bi st1
  let st3 := extHi a b notJ ahi bhi (a.length + b.length) st2
  let st4 := extLo a b isJ alo blo st3.bi st3
  extHi a b isJ ahi bhi (a.length + b.length) st4

/-- The recursive block collection of `get_matching_blocks` (the queue of
`difflib` processes independent sub-ranges, so the collected set equals this
left/right recursion; blocks are sorted afterwards either way).  `fuel`
exceeds the recursion depth, which the strictly shrinking `a`-range bounds
by `a.length`. -/
def matchingBlocksGo (a b : PyStr) (m : List (Char × List Nat)) (junk : List Char) :
    Nat → Nat → Nat → Nat → Nat → List SMBlock
  | 0, _, _, _, _ => []
  | fuel + 1, alo, ahi, blo, bhi =>
    let st := findLongestMatch a b m junk alo ahi blo bhi
    if st.bsize == 0 then []
    else
      (if alo < st.bi && blo < st.bj then
        matchingBlocksGo a b m junk fuel alo st.bi blo st.bj
      else []) ++
      [SMBlock.mk st.bi st.bj st.bsize] ++
      (if st.bi + st.bsize < ahi && st.bj + st.bsize < bhi then
        matchingBlocksGo a b m junk fuel (st.bi + st.bsize) ahi (st.bj + st.bsize) bhi
      else [])

/-- Lexicographic order on block triples, as Python tuple `<`. -/
def blockLt (x y : SMBlock) : Bool :=
  x.ai < y.ai || (x.ai == y.ai && (x.bi < y.bi || (x.bi == y.bi && x.size < y.size)))

/-- Stable insertion into a sorted block list. -/
def insBlock (x : SMBlock) : List SMBlock → List SMBlock
  | [] => [x]
  | y :: ys => if blockLt x y then x :: y :: ys else y :: insBlock x ys

/-- `matching_blocks.sort()`. -/
def sortBlocks : List SMBlock → List SMBlock
  | [] => []
  | x :: xs => insBlock x (sortBlocks xs)

/-- The adjacent-block merge loop of `get_matching_blocks`, starting from
`i1 = j1 = k1 = 0`. -/
def mergeAdjGo : Nat → Nat → Nat → List SMBlock → List SMBlock
  | i1, j1, k1, [] => if k1 ≠ 0 then [SMBlock.mk i1 j1 k1] else []
  | i1, j1, k1, b :: bs =>
    if i1 + k1 == b.ai && j1 + k1 == b.bi then mergeAdjGo i1 j1 (k1 + b.size) bs
    else if k1 ≠ 0 then SMBlock.mk i1 j1 k1 :: mergeAdjGo b.ai b.bi b.size bs
    else mergeAdjGo b.ai b.bi b.size bs

/-- `SequenceMatcher(None, a, b).get_matching_blocks()`: collect, sort, merge
adjacent blocks, and append the terminal `(len(a), len(b), 0)` sentinel. -/
def getMatchingBlocks (a b : PyStr) : List SMBlock :=
  let m := smB2j b
  let junk := smJunk b
  let bs := sortBlocks (matchingBlocksGo a b m junk (a.length + 1) 0 a.length 0 b.length)
  mergeAdjGo 0 0 0 bs ++ [SMBlock.mk a.length b.length 0]

/-- Total size matched (`sum(triple[-1] for triple in blocks)`). -/
def smMatches (a b : PyStr) : Nat :=
  (getMatchingBlocks a b).foldl (fun acc blk => acc + blk.size) 0

/-- `SequenceMatcher.ratio()`: `2.0 * matches / (len(a) + len(b))`, and `1.0`
on two empty strings. -/
def smRatio (a b : PyStr) : Frac :=
  let t := a.length + b.length
  if t == 0 then Frac.mk 1 1 else Frac.mk (2 * smMatches a b) t

/-- `utils.intr(100 * r)` of fuzzywuzzy: `int(round(100 * r))` with Python's
half-to-even rounding, on the exact fraction. -/
def intr100 (f : Frac) : Nat :=
  if f.den == 0 then 0
  else
    let a := 100 * f.num
    let q := a / f.den
    let r := a % f.den
    if 2 * r < f.den then q
    else if 2 * r > f.den then q + 1
    else if q % 2 == 0 then q else q + 1

/-- `fuzz.ratio`: the equivalence and empty-string guards of its decorators,
then the rounded `SequenceMatcher` ratio. -/
def fuzzRatio (s1 s2 : PyStr) : Nat :=
  if s1 == s2 then 100
  else if s1.length == 0 || s2.length == 0 then 0
  else intr100 (smRatio s1 s2)

/-- `max(scores)` over fractions: Python keeps the first of equal maxima. -/
def fracMax : List Frac → Frac
  | [] => Frac.mk 0 1
  | f :: fs => fs.foldl (fun acc x => if fracLt acc x then x else acc) f

/-- The block loop of `fuzz.partial_ratio`: align `shorter` against the
`len(shorter)`-wide window of `longer` at each block, short-circuit to 100
when a window ratio exceeds `.995`, otherwise round the best window ratio.
(`long_start = max(0, block.bi - block.ai)` is Nat subtraction here.) -/
def partLoop (shorter longer : PyStr) : List SMBlock → List Frac → Nat
  | [], scores => intr100 (fracMax scores)
  | b :: bs, scores =>
    let ls := b.bi - b.ai
    let substr := (longer.drop ls).take shorter.length
    let r := smRatio shorter substr
    if fracLt (Frac.mk 995 1000) r then 100 else partLoop shorter longer bs (scores ++ [r])

/-- `fuzz.partial_ratio`. -/
def fuzzPartialRatio (s1 s2 : PyStr) : Nat :=
  if s1 == s2 then 100
  else if s1.length == 0 || s2.length == 0 then 0
  else
    let p := if s1.length ≤ s2.length then (s1, s2) else (s2, s1)
    partLoop p.1 p.2 (getMatchingBlocks p.1 p.2) []

/-- Keep characters below code point 128 (`utils.asciidammit` under
`force_ascii=True`). -/
def pyAsciiOnly (cs : PyStr) : PyStr := cs.filter (fun c => c.toNat < 128)

/-- `utils.full_process(s, force_ascii=True)`: ASCII filter, replace `\W`
with space, lowercase, strip. -/
def fullProcess (cs : PyStr) : PyStr :=
  pyStrip (pyLower ((pyAsciiOnly cs).map (fun c => if isWordChar c then c else ' ')))

/-- Code-point lexicographic `<` on strings, as Python string comparison. -/
def strLt : PyStr → PyStr → Bool
  | [], [] => false
  | [], _ :: _ => true
  | _ :: _, [] => false
  | c :: cs, d :: ds =>
    if c.toNat < d.toNat then true
    else if d.toNat < c.toNat then false
    else strLt cs ds

/-- Stable insertion into an ascending word list. -/
def insStr (x : PyStr) : List PyStr → List PyStr
  | [] => [x]
  | y :: ys => if strLt x y then x :: y :: ys else y :: insStr x ys

/-- `sorted(words)`. -/
def sortStrs : List PyStr → List PyStr
  | [] => []
  | x :: xs => insStr x (sortStrs xs)

/-- `_process_and_sort`: full-process, split, sort, join, strip. -/
def processAndSort (s : PyStr) : PyStr :=
  pyStrip (joinWords (sortStrs (splitWords (fullProcess s))))

/-- `fuzz.token_sort_ratio` (`partial=False`, `force_ascii=True`,
`full_process=True`). -/
def fuzzTokenSortRatio (s1 s2 : PyStr) : Nat :=
  fuzzRatio (processAndSort s1) (processAndSort s2)

/-- Deduplicate keeping first occurrences (`set()` before sorting). -/
def dedupGo (seen : List PyStr) : List PyStr → List PyStr
  | [] => []
  | x :: xs => if seen.contains x then dedupGo seen xs else x :: dedupGo (x :: seen) xs

/-- Distinct words of a processed string. -/
def dedupStrs (l : List PyStr) : List PyStr := dedupGo [] l

/-- `fuzz.token_set_ratio` (`partial=False`, `force_ascii=True`,
`full_process=True`): compare the sorted token intersection against the two
intersection-plus-difference combinations and take the maximum ratio. -/
def fuzzTokenSetRatio (s1 s2 : PyStr) : Nat :=
  let p1 := fullProcess s1
  let p2 := fullProcess s2
  if p1.length == 0 then 0
  else if p2.length == 0 then 0
  else
    let t1 := dedupStrs (splitWords p1)
    let t2 := dedupStrs (splitWords p2)
    let sortedSect := joinWords (sortStrs (t1.filter (fun w => t2.contains w)))
    let s12 := joinWords (sortStrs (t1.filter (fun w => !(t2.contains w))))
    let s21 := joinWords (sortStrs (t2.filter (fun w => !(t1.contains w))))
    let c12 := pyStrip (sortedSect ++ ' ' :: s12)
    let c21 := pyStrip (sortedSect ++ ' ' :: s21)
    let ss := pyStrip sortedSect
    max (fuzzRatio ss c12) (max (fuzzRatio ss c21) (fuzzRatio c12 c21))

end HomeEpg

namespace HomeEpg

/-!
### Data model and matching engine
-/

/-- A guide channel as `load_epg_channels` builds it. -/
structure GuideChannel where
  id : PyStr
  display_names : List PyStr
  icons : List PyStr
deriving DecidableEq, Repr

/-- A playlist channel record as the playlist loaders build it. -/
structure PChannel where
  name : PyStr
  clean_name : PyStr
  tvg_id : PyStr
  info : PyStr
  url : PyStr
deriving DecidableEq, Repr

/-- The method labels of `find_best_match` (`'Exact match'`,
`'String similarity'`, `'Partial match'`, `'Token sort'`, `'Token set'`). -/
inductive MatchMethod where
  | Exact
  | Similarity
  | PartialM
  | TokenSort
  | TokenSet
deriving DecidableEq, Repr

/-- The dict `find_best_match` returns:
`{'epg_channel': ..., 'score': ..., 'method': ...}` (each value may be
`None`). -/
structure FBMResult where
  epg_channel : Option GuideChannel
  score : Nat
  method : Option MatchMethod
deriving DecidableEq, Repr

/-- The exact pass of `find_best_match`: the first guide channel one of whose
display names cleans to `cn`. -/
def exactPass (cn : PyStr) : List GuideChannel → Option GuideChannel
  | [] => none
  | e :: es =>
    if e.display_names.any (fun d => cleanChannelName d == cn) then some e
    else exactPass cn es

/-- Running best of the fuzzy pass: `best_score, best_match, best_method`. -/
structure FuzzyBest where
  score : Nat
  target : Option GuideChannel
  method : Option MatchMethod
deriving DecidableEq, Repr

/-- One strictly-improving update of the fuzzy pass
(`if score > best_score: best_score, best_match, best_method = ...`). -/
def fuzzyUpd (sc : Nat) (e : GuideChannel) (meth : MatchMethod) (st : FuzzyBest) : FuzzyBest :=
  if sc > st.score then FuzzyBest.mk sc (some e) (some meth) else st

/-- One `(epg_channel, display_name)` step of the fuzzy pass: compute the four
scores, then the four sequential strictly-improving updates in source
order. -/
def fuzzyStep (cn : PyStr) (st : FuzzyBest) (p : GuideChannel × PyStr) : FuzzyBest :=
  let ce := cleanChannelName p.2
  fuzzyUpd (fuzzTokenSetRatio cn ce) p.1 .TokenSet
    (fuzzyUpd (fuzzTokenSortRatio cn ce) p.1 .TokenSort
      (fuzzyUpd (fuzzPartialRatio cn ce) p.1 .PartialM
        (fuzzyUpd (fuzzRatio cn ce) p.1 .Similarity st)))

/-- The `(epg_channel, display_name)` pairs in the nested loop order. -/
def fuzzyPairs (epgs : List GuideChannel) : List (GuideChannel × PyStr) :=
  epgs.flatMap (fun e => e.display_names.map (fun d => (e, d)))

/-- The whole fuzzy pass of `find_best_match`. -/
def fuzzyBest (cn : PyStr) (epgs : List GuideChannel) : FuzzyBest :=
  (fuzzyPairs epgs).foldl (fuzzyStep cn) (FuzzyBest.mk 0 none none)

/-- `find_best_match` from `epg_matcher.py` (lines 231-302) and
`match_channels.py` (lines 222-293), which are identical: the exact pass
short-circuits with score 100 regardless of the threshold; otherwise the
fuzzy best is returned iff `best_score >= threshold`. -/
def findBestMatch (channel : PChannel) (epgs : List GuideChannel) (threshold : Int) :
    Option FBMResult :=
  let cn := cleanChannelName channel.clean_name
  match exactPass cn epgs with
  | some e => some (FBMResult.mk (some e) 100 (some .Exact))
  | none =>
    let fb := fuzzyBest cn epgs
    if (fb.score : Int) ≥ threshold then some (FBMResult.mk fb.target fb.score fb.method)
    else none

/-- One element of the `matches` list of `match_channels`
(`{'playlist_channel': ..., 'epg_match': ...}`, with the `source_file` key
`process_epg_files` later adds modelled as an optional field). -/
structure MatchEntry where
  playlist_channel : PChannel
  epg_match : Option FBMResult
  source_file : Option PyStr
deriving DecidableEq, Repr

/-- `match_channels` (both files): an empty guide list returns `[]` before
the statistics line; otherwise the statistics line divides by
`len(playlist_channels)`, an uncaught `ZeroDivisionError` when the playlist
is empty. -/
def matchChannels (pcs : List PChannel) (epgs : List GuideChannel) (threshold : Int) :
    Except String (List MatchEntry) :=
  if epgs.isEmpty then .ok []
  else
    let ms := pcs.map (fun c => MatchEntry.mk c (findBestMatch c epgs threshold) none)
    if pcs.length == 0 then .error "ZeroDivisionError" else .ok ms

/-!
### Consolidation (`epg_downloader.process_epg_files`, lines 78-138)
-/

/-- Tagging step of the per-document loop: matched entries receive the source
file's base name (`match['source_file'] = os.path.basename(epg_file)`);
unmatched entries are left untagged. -/
def addSourceTag (f : PyStr) (ms : List MatchEntry) : List MatchEntry :=
  ms.map (fun m =>
    if m.epg_match.isSome then MatchEntry.mk m.playlist_channel m.epg_match (some f) else m)

/-- `all_matches`: per-document matching and tagging, concatenated in document
order. -/
def processEpgAllMatches (pcs : List PChannel) (docs : List (PyStr × List GuideChannel))
    (t : Int) : List MatchEntry :=
  docs.flatMap (fun d =>
    match matchChannels pcs d.2 t with
    | .ok ms => addSourceTag d.1 ms
    | .error _ => [])

/-- Score helper (`match['epg_match']['score']`, only consulted when the
match is present). -/
def entryScore (m : MatchEntry) : Nat :=
  match m.epg_match with
  | some r => r.score
  | none => 0

/-- The replacement condition of the consolidation loop:
`(not existing.epg_match and new.epg_match) or (existing.epg_match and
new.epg_match and new.score > existing.score)`. -/
def shouldReplace (ex m : MatchEntry) : Bool :=
  (ex.epg_match.isNone && m.epg_match.isSome) ||
  (ex.epg_match.isSome && m.epg_match.isSome && entryScore m > entryScore ex)

/-- Lookup in an insertion-ordered association list (a Python dict). -/
def alistLookup {α : Type} (acc : List (PyStr × α)) (k : PyStr) : Option α :=
  match acc.find? (fun p => p.1 == k) with
  | some p => some p.2
  | none => none

/-- Overwrite the value at an existing key, keeping its position (Python dict
assignment to a present key). -/
def alistOverwrite {α : Type} (acc : List (PyStr × α)) (k : PyStr) (v : α) :
    List (PyStr × α) :=
  acc.map (fun p => if p.1 == k then (p.1, v) else p)

/-- Python `d[k] = v`: append a fresh key, overwrite an existing one in
place. -/
def alistInsert {α : Type} (acc : List (PyStr × α)) (k : PyStr) (v : α) :
    List (PyStr × α) :=
  match alistLookup acc k with
  | none => acc ++ [(k, v)]
  | some _ => alistOverwrite acc k v

/-- One iteration of the consolidation loop over `all_matches`, keyed by
`match['playlist_channel']['name']`. -/
def consolidateStep (acc : List (PyStr × MatchEntry)) (m : MatchEntry) :
    List (PyStr × MatchEntry) :=
  let k := m.playlist_channel.name
  match alistLookup acc k with
  | none => acc ++ [(k, m)]
  | some ex => if shouldReplace ex m then alistOverwrite acc k m else acc

/-- The `consolidated_matches` dict after the loop. -/
def consolidateAssoc (l : List MatchEntry) : List (PyStr × MatchEntry) :=
  l.foldl consolidateStep []

/-- `final_matches = list(consolidated_matches.values())`. -/
def consolidateMatches (l : List MatchEntry) : List MatchEntry :=
  (consolidateAssoc l).map Prod.snd

/-- Modelled from the spec's consolidation rule, for comparison: within a
group, prefer a matched result over an unmatched one; among matched results
keep the strictly higher score; first-seen wins on a tie. -/
def specPick (ex m : MatchEntry) : MatchEntry :=
  match ex.epg_match, m.epg_match with
  | none, some _ => m
  | some a, some b => if b.score > a.score then m else ex
  | _, _ => ex

/-- First occurrences of the playlist names, in order of appearance. -/
def firstKeys (l : List MatchEntry) : List PyStr :=
  l.foldl
    (fun ks m =>
      if ks.contains m.playlist_channel.name then ks else ks ++ [m.playlist_channel.name])
    []

/-- The surviving result of one name group under the spec's rule. -/
def specGroup (l : List MatchEntry) (n : PyStr) : Option MatchEntry :=
  match l.filter (fun m => m.playlist_channel.name == n) with
  | [] => none
  | h :: t => some (t.foldl specPick h)

/-- Spec-side consolidation: one surviving result per first-seen name. -/
def specConsolidate (l : List MatchEntry) : List MatchEntry :=
  (firstKeys l).filterMap (specGroup l)

end HomeEpg

namespace HomeEpg

/-!
### Document model

`xml.etree.ElementTree` documents are modelled as a tree of elements, each
with a tag, attributes, optional text and children.  Emitters that build a
document string are modelled as building the tree that string parses to.
-/

/-- An XML element. -/
inductive Xml where
  | elem (tag : PyStr) (attrs : List (PyStr × PyStr)) (text : Option PyStr)
      (children : List Xml)

/-- The element's tag. -/
def Xml.tagOf : Xml → PyStr
  | .elem t _ _ _ => t

/-- The element's attribute list. -/
def Xml.attrsOf : Xml → List (PyStr × PyStr)
  | .elem _ a _ _ => a

/-- The element's text. -/
def Xml.textOf : Xml → Option PyStr
  | .elem _ _ t _ => t

/-- The element's children. -/
def Xml.childrenOf : Xml → List Xml
  | .elem _ _ _ c => c

/-- `element.get(key)`. -/
def Xml.attr (x : Xml) (k : PyStr) : Option PyStr :=
  match x.attrsOf.find? (fun p => p.1 == k) with
  | some p => some p.2
  | none => none

mutual

/-- Descendants of an element with a given tag, in document order
(`element.findall(".//tag")`; the element itself is excluded). -/
def descsOne (tag : PyStr) : Xml → List Xml
  | .elem _ _ _ children => descsList tag children

/-- Descendant collection over a child list. -/
def descsList (tag : PyStr) : List Xml → List Xml
  | [] => []
  | c :: cs =>
    (if c.tagOf == tag then [c] else []) ++ descsOne tag c ++ descsList tag cs

end

/-- The top-level children of a document with a given tag. -/
def xmlTopChildren (x : Xml) (tag : PyStr) : List Xml :=
  x.childrenOf.filter (fun c => c.tagOf == tag)

/-- `load_playlist_from_xml` from `match_channels.py` (lines 33-67) and
`epg_matcher.py` (lines 42-76), which are identical: one record per
`channel` descendant that has at least one `display-name` descendant with
non-empty text; the first such name becomes the record's name, and the
`info`/`url` fields are synthesized placeholder strings. -/
def loadPlaylistFromXml (root : Xml) : List PChannel :=
  (descsOne "channel".toList root).filterMap (fun ch =>
    let cid := (ch.attr "id".toList).getD []
    let dns := (descsOne "display-name".toList ch).filterMap (fun dn =>
      match dn.textOf with
      | some t => if t.isEmpty then none else some (pyStrip t)
      | none => none)
    match dns with
    | [] => none
    | name :: _ =>
      some (PChannel.mk name name cid
        ("#EXTINF:-1 tvg-id=".toList ++ '"' :: cid ++ '"' :: ',' :: name)
        ("#EXTURL:".toList ++ cid)))

/-!
### Line-oriented playlist loader (`load_playlist_channels`, M3U branch)
-/

/-- `re.search(r',(.+)$', line)`: the first comma followed by at least one
character; the group is everything after that comma. -/
def firstCommaTail : PyStr → Option PyStr
  | [] => none
  | c :: rest =>
    if c == ',' && !rest.isEmpty then some rest else firstCommaTail rest

/-- Match a literal, case-sensitively. -/
def matchLit : PyStr → PyStr → Option PyStr
  | [], rest => some rest
  | _ :: _, [] => none
  | t :: ts, c :: rest => if c == t then matchLit ts rest else none

/-- `re.search(r'tvg-id="([^"]*)"', line)`: the first occurrence of
`tvg-id="` that is followed by a closing quote; the group is the value
between the quotes. -/
def tvgIdScan : PyStr → Option PyStr
  | [] => none
  | c :: rest =>
    match matchLit "tvg-id=\"".toList (c :: rest) with
    | some r1 =>
      let v := r1.takeWhile (fun x => x ≠ '"')
      let r2 := r1.dropWhile (fun x => x ≠ '"')
      if r2.isEmpty then tvgIdScan rest else some v
    | none => tvgIdScan rest

/-- The record a metadata line and its following line produce, if any: the
line must start with `#EXTINF` and contain a comma with text after it, the
name must pass the optional region filter, and the next line must not start
with `#`.  An absent or empty region argument is modelled as `none` (Python
tests `if country_prefix:`). -/
def parseExtinfRecord (region : Option PyStr) (line next : PyStr) : Option PChannel :=
  if !(pyStartsWith line "#EXTINF".toList) then none
  else
    match firstCommaTail line with
    | none => none
    | some tail =>
      let name := pyStrip tail
      let keep := match region with
        | some p => pyStartsWith name p
        | none => true
      if !keep then none
      else if pyStartsWith next "#".toList then none
      else
        let tvg := (tvgIdScan line).getD []
        let cname := match region with
          | some p => if pyStartsWith name p then pyStrip (name.drop p.length) else name
          | none => name
        some (PChannel.mk name cname tvg line (pyStrip next))

/-- The M3U branch of `load_playlist_channels` (`epg_matcher.py` lines
110-149, `match_channels.py` lines 101-140, `create_channel_list.py` lines
110-151): scan the line list; each `#EXTINF` line with a following line is
offered to `parseExtinfRecord` (a final metadata line has no `lines[i+1]`
and produces nothing). -/
def loadPlaylistM3U (region : Option PyStr) : List PyStr → List PChannel
  | [] => []
  | [_] => []
  | l :: l2 :: rest =>
    match parseExtinfRecord region l l2 with
    | some r => r :: loadPlaylistM3U region (l2 :: rest)
    | none => loadPlaylistM3U region (l2 :: rest)

/-!
### Filtered program-guide emission (`generate_filtered_epg_xml`)

The two sources differ here and are modeled separately.  `match_channels.py`
(lines 386-470) rebuilds one channel per input channel element carrying a
matched id (a `findall` loop).  `epg_matcher.py` (lines 327-415) looks up
only the first such element with `root.find` and then runs
`if not channel_template: continue` — an `ElementTree` element with no
children is falsy — so a found-but-childless template emits nothing.  Both
fill `channel_ids_to_include` before any lookup and filter programmes by
that matched-id set.
-/

/-- `matches_to_include`: the perfect-score filter or the any-match filter. -/
def includedEntries (matches0 : List MatchEntry) (onlyPerfect : Bool) : List MatchEntry :=
  if onlyPerfect then
    matches0.filter (fun m =>
      match m.epg_match with
      | some r => r.score == 100
      | none => false)
  else matches0.filter (fun m => m.epg_match.isSome)

/-- `match['epg_match']['epg_channel']['id']` when every layer is present. -/
def entryChanId (m : MatchEntry) : Option PyStr :=
  match m.epg_match with
  | some r =>
    match r.epg_channel with
    | some e => some e.id
    | none => none
  | none => none

/-- The matched-channel-id set (`channel_ids_to_include`): every included
entry contributes its id before any lookup in the input document. -/
def includedIds (matches0 : List MatchEntry) (onlyPerfect : Bool) : List PyStr :=
  (includedEntries matches0 onlyPerfect).filterMap entryChanId

/-- The rebuilt channel element: id attribute, the playlist name as
display-name, the template's descendant icons, then its remaining direct
children. -/
def rebuildChannel (name cid : PyStr) (chElem : Xml) : Xml :=
  Xml.elem "channel".toList [("id".toList, cid)] none
    (Xml.elem "display-name".toList [] (some name) [] ::
      ((descsOne "icon".toList chElem).map (fun ic =>
        Xml.elem "icon".toList [("src".toList, (ic.attr "src".toList).getD [])] none []) ++
       chElem.childrenOf.filter (fun c =>
         !(c.tagOf == "display-name".toList) && !(c.tagOf == "icon".toList))))

/-- The channel elements the filtered emitter of `match_channels.py`
writes: for every included entry, one rebuilt channel per input channel
element carrying the matched id. -/
def genFilteredChans (incl : List MatchEntry) (input : Xml) : List Xml :=
  incl.flatMap (fun m =>
    match entryChanId m with
    | none => []
    | some cid =>
      ((descsOne "channel".toList input).filter
          (fun ch => ch.attr "id".toList == some cid)).map
        (rebuildChannel m.playlist_channel.name cid))

/-- The programme elements the filtered emitter writes: the input programmes
whose `channel` attribute lies in the matched-id set, copied with their
attributes and children. -/
def genFilteredProgs (ids : List PyStr) (input : Xml) : List Xml :=
  (descsOne "programme".toList input).filterMap (fun p =>
    match p.attr "channel".toList with
    | some cid =>
      if ids.contains cid then some (Xml.elem "programme".toList p.attrsOf none p.childrenOf)
      else none
    | none => none)

/-- `generate_filtered_epg_xml` of `match_channels.py` (lines 386-470):
`none` models the `False` returns (no included match, or the `TypeError` a
missing `epg_channel` raises inside the `try` block).  Channels are emitted
once per matching input element; programmes are filtered by the matched-id
set, not by the emitted channels. -/
def generateFilteredEpgXml (matches0 : List MatchEntry) (input : Xml) (onlyPerfect : Bool) :
    Option Xml :=
  let incl := includedEntries matches0 onlyPerfect
  if incl.isEmpty then none
  else if incl.any (fun m => (entryChanId m).isNone) then none
  else
    some (Xml.elem "tv".toList input.attrsOf none
      (genFilteredChans incl input ++ genFilteredProgs (incl.filterMap entryChanId) input))

/-- `root.find(".//channel[@id='...']")`: the first channel element with
the given id, in document order. -/
def firstChanFor (input : Xml) (cid : PyStr) : Option Xml :=
  ((descsOne "channel".toList input).filter
    (fun ch => ch.attr "id".toList == some cid)).head?

/-- The channel elements the filtered emitter of `epg_matcher.py` writes:
for every included entry, the first input channel element with the matched
id, skipped when absent or childless (`if not channel_template: continue`;
an `ElementTree` element with no children is falsy). -/
def genFilteredChansMatcher (incl : List MatchEntry) (input : Xml) : List Xml :=
  incl.flatMap (fun m =>
    match entryChanId m with
    | none => []
    | some cid =>
      match firstChanFor input cid with
      | none => []
      | some ch =>
        if ch.childrenOf.isEmpty then []
        else [rebuildChannel m.playlist_channel.name cid ch])

/-- `generate_filtered_epg_xml` of `epg_matcher.py` (lines 327-415): as the
`match_channels.py` variant, except that each matched id contributes at most
one channel and a found-but-childless template is skipped — while its
programmes are still copied, since `channel_ids_to_include` is filled before
the lookup. -/
def generateFilteredEpgXmlMatcher (matches0 : List MatchEntry) (input : Xml)
    (onlyPerfect : Bool) : Option Xml :=
  let incl := includedEntries matches0 onlyPerfect
  if incl.isEmpty then none
  else if incl.any (fun m => (entryChanId m).isNone) then none
  else
    some (Xml.elem "tv".toList input.attrsOf none
      (genFilteredChansMatcher incl input ++
        genFilteredProgs (incl.filterMap entryChanId) input))

/-- The ids of the channel elements a document's top level carries. -/
def outputChannelIds (x : Xml) : List PyStr :=
  (xmlTopChildren x "channel".toList).filterMap (fun c => c.attr "id".toList)

end HomeEpg

namespace HomeEpg

/-!
### Catalog loading, catalog matching and channel-list emission
(`create_channel_list.py`)
-/

/-- The `mapping_data` dict `load_channel_mappings` stores. -/
structure MapData where
  site : PyStr
  site_id : PyStr
  xmltv_id : PyStr
  lang : PyStr
  original_name : PyStr
deriving DecidableEq, Repr

/-- A `channel` element of a mapping document (`site_id`, `xmltv_id`, `lang`
attributes and text content; `lang` already carries its `'en'` default). -/
structure RawCatChannel where
  site_id : PyStr
  xmltv_id : PyStr
  lang : PyStr
  text : Option PyStr
deriving DecidableEq, Repr

/-- One mapping document: the site name derived from the file name, and its
channel elements in document order. -/
structure CatFile where
  site : PyStr
  channels : List RawCatChannel
deriving DecidableEq, Repr

/-- The stripped text of a catalog channel (`channel.text.strip() if
channel.text else ''`). -/
def catChannelName (ch : RawCatChannel) : PyStr :=
  match ch.text with
  | some t => pyStrip t
  | none => []

/-- `load_channel_mappings` (lines 163-220): build `normalized_mappings`,
keyed by the normalized name, across all files in order; a colliding key is
overwritten in place (dict assignment).  Only this normalized index is
returned — the literal-name dict the function also fills is discarded at
line 220. -/
def loadChannelMappings (files : List CatFile) : List (PyStr × MapData) :=
  files.foldl
    (fun acc f =>
      f.channels.foldl
        (fun acc2 ch =>
          let name := catChannelName ch
          if ch.site_id.isEmpty || name.isEmpty then acc2
          else
            alistInsert acc2 (normalizeChannelName name)
              (MapData.mk f.site ch.site_id ch.xmltv_id ch.lang name))
        acc)
    []

/-- The flattened valid entries with their normalized keys, in load order
(for stating what the index holds). -/
def catEntryList (files : List CatFile) : List (PyStr × MapData) :=
  files.flatMap (fun f =>
    f.channels.filterMap (fun ch =>
      let name := catChannelName ch
      if ch.site_id.isEmpty || name.isEmpty then none
      else
        some (normalizeChannelName name,
          MapData.mk f.site ch.site_id ch.xmltv_id ch.lang name)))

/-- The last-loaded entry for a normalized key. -/
def lastDataFor (files : List CatFile) (k : PyStr) : Option MapData :=
  (((catEntryList files).filter (fun p => p.1 == k)).getLast?).map Prod.snd

/-- The `match_type` values `'direct'`, `'partial'`, `'none'` of the catalog
matcher. -/
inductive CatMatchType where
  | Direct
  | PartialScan
  | NoMatch
deriving DecidableEq, Repr

/-- A result dict of the catalog matcher (`score` only present for the scan
path). -/
structure CatMatch where
  playlist_channel : PChannel
  mapping : Option MapData
  match_type : CatMatchType
  score : Option Frac
deriving DecidableEq, Repr

/-- `calculate_similarity` (lines 316-320): the bare `SequenceMatcher`
ratio. -/
def calcSimilarity (s1 s2 : PyStr) : Frac := smRatio s1 s2

/-- One comparison of the similarity scan: keep the strictly better score
when it also clears the 0.8 bar, and remember that key's mapping. -/
def scanStep (cm : List (PyStr × MapData)) (nn : PyStr) (st : Frac × Option MapData)
    (nm : PyStr) : Frac × Option MapData :=
  let sc := calcSimilarity nn nm
  if fracLt st.1 sc && fracLt (Frac.mk 4 5) sc then (sc, alistLookup cm nm) else st

/-- The scan's candidate keys: the index's keys sharing the first character
(`[name for name in mapping_names if name and name[0] == first_char]`,
with `first_char = ''` for an empty normalized name, which no key's first
character equals). -/
def scanCandidates (cm : List (PyStr × MapData)) (nn : PyStr) : List PyStr :=
  match nn with
  | [] => []
  | c0 :: _ =>
    (cm.map Prod.fst).filter (fun nm =>
      match nm with
      | [] => false
      | d0 :: _ => d0 == c0)

/-- The running `(best_score, best_match)` after the scan. -/
def scanBest (cm : List (PyStr × MapData)) (nn : PyStr) : Frac × Option MapData :=
  (scanCandidates cm nn).foldl (scanStep cm nn) (Frac.mk 0 1, none)

/-- `process_channel` inside `match_channels` (lines 256-297): direct lookup
in the normalized index; otherwise scan the index's keys that share the
first character, keeping the strictly best score above the 0.8 bar. -/
def processChannel (cm : List (PyStr × MapData)) (c : PChannel) : CatMatch :=
  let nn := normalizeChannelName c.clean_name
  match alistLookup cm nn with
  | some d => CatMatch.mk c (some d) .Direct none
  | none =>
    match (scanBest cm nn).2 with
    | some d => CatMatch.mk c (some d) .PartialScan (some (scanBest cm nn).1)
    | none => CatMatch.mk c none .NoMatch none

/-- `match_channels` of `create_channel_list.py` (lines 237-314): the worker
pool maps `process_channel` over the playlist, preserving order. -/
def matchChannelsCatalog (pcs : List PChannel) (cm : List (PyStr × MapData)) :
    List CatMatch :=
  pcs.map (processChannel cm)

/-- Python `a or b` on strings: the first non-empty one. -/
def pyOr (a b : PyStr) : PyStr := if a.isEmpty then b else a

/-- The emitted display text: the region argument is prepended when the name
does not already start with it (an absent or empty argument is `none`). -/
def channelText (region : Option PyStr) (name : PyStr) : PyStr :=
  match region with
  | some p => if !(pyStartsWith name p) then p ++ ' ' :: name else name
  | none => name

/-- `generate_channel_list_xml` (lines 322-369) builds the document text
line by line; this is the element tree that text parses to: a `channels`
root whose children are one `channel` element per mapped match, carrying
`site`/`lang`/`xmltv_id`/`site_id` attributes and the display text as
element text — and no child elements. -/
def generateChannelListDoc (matches0 : List CatMatch) (region : Option PyStr) : Xml :=
  Xml.elem "channels".toList [] none
    (matches0.filterMap (fun m =>
      match m.mapping with
      | none => none
      | some mp =>
        some (Xml.elem "channel".toList
          [("site".toList, mp.site), ("lang".toList, mp.lang),
           ("xmltv_id".toList, pyOr mp.xmltv_id (pyOr m.playlist_channel.tvg_id [])),
           ("site_id".toList, mp.site_id)]
          (some (channelText region m.playlist_channel.name)) [])))

/-- The display texts the channel-list document carries. -/
def channelListTexts (matches0 : List CatMatch) (region : Option PyStr) : List PyStr :=
  (generateChannelListDoc matches0 region).childrenOf.filterMap Xml.textOf

end HomeEpg


namespace HomeEpg

/-!
### Fully-reduced names

Both normalizers strip only one trailing generic-suffix token per
application, so a second application can strip further (the claimed
idempotence fails).  A once-normalized name on which no removal pass can
fire any more is called fully reduced: canonically spaced uppercase words
of word characters, none of them a removable quality token, the last not a
generic suffix token.
-/

/-- A character as it appears inside a fully-reduced word: a word character
fixed by the ASCII upper-case map. -/
def canonWordChar (c : Char) : Bool := isWordChar c && c.toUpper == c

/-- A fully-reduced word: non-empty, canonical characters only. -/
def canonWord (w : PyStr) : Bool := !w.isEmpty && w.all canonWordChar

/-- The quality tokens that consist of word characters (every token of the
alternation except `H.265`, whose dot cannot occur in a reduced name). -/
def qualWordList : List PyStr :=
  ["HD".toList, "SD".toList, "FHD".toList, "UHD".toList, "4K".toList,
   "HEVC".toList, "H265".toList]

/-- The generic suffix tokens of the two normalizers. -/
def genericWordList : List PyStr :=
  ["CHANNEL".toList, "TV".toList, "NETWORK".toList, "INDIA".toList]

/-- A name on which neither normalizer has anything left to remove. -/
def fullyReduced (s : PyStr) : Bool :=
  (joinWords (splitWords s) == s) &&
  (splitWords s).all (fun w => canonWord w && !(qualWordList.contains w)) &&
  (match (splitWords s).getLast? with
   | some w => !(genericWordList.contains w)
   | none => true)

/-- The `\b`-scanner of `remQualBGo` cannot fire anywhere on `cs` when
scanning starts in state `prev`. -/
def qualSafe : Bool → PyStr → Bool
  | _, [] => true
  | prev, c :: rest =>
    (prev || (tryQualToks qualToks (c :: rest)).isNone) && qualSafe (isWordChar c) rest

/-- The `\s+`-scanner of `remWsQualGo` cannot fire anywhere on `cs`. -/
def wsQualSafe : PyStr → Bool
  | [] => true
  | c :: rest => (!(isPySpace c) || (tryWsQualTok (c :: rest)).isNone) && wsQualSafe rest

/-!
### Concrete instances used by counterexamples and witnesses
-/

/-- A playlist channel named `ESPN`. -/
def chESPN : PChannel := PChannel.mk "ESPN".toList "ESPN".toList [] [] []

/-- A guide channel whose only display name is `ESPN NEWS` (the cleaned
playlist name `ESPN` is a strict substring of its cleaned form). -/
def gNews : GuideChannel := GuideChannel.mk "id1".toList ["ESPN NEWS".toList] []

/-- A guide channel whose only display name is `ESPN` (an exact match for
`chESPN`). -/
def gExact : GuideChannel := GuideChannel.mk "id2".toList ["ESPN".toList] []

/-- A guide channel whose only display name is `ESPM` (a 75-point fuzzy
match for `chESPN`). -/
def gESPM : GuideChannel := GuideChannel.mk "id3".toList ["ESPM".toList] []

/-- A catalog match mapped to a catalog entry, used to emit a one-channel
channel-list document named `BBC`. -/
def catBBC : CatMatch :=
  CatMatch.mk (PChannel.mk "BBC".toList "BBC".toList [] [] [])
    (some (MapData.mk "s".toList "sid".toList "x".toList "en".toList "BBC".toList))
    .Direct none

/-- A match entry whose matched guide channel has id `X`. -/
def entryX : MatchEntry :=
  MatchEntry.mk (PChannel.mk "P".toList "P".toList [] [] [])
    (some (FBMResult.mk (some (GuideChannel.mk "X".toList ["N".toList] [])) 100
      (some .Exact)))
    none

/-- An input guide document that carries a programme for channel `X` but no
channel element at all. -/
def inputNoChannelElem : Xml :=
  Xml.elem "tv".toList [] none
    [Xml.elem "programme".toList [("channel".toList, "X".toList)] none []]

/-- An input guide document that carries a childless channel `X` element
(falsy for `ElementTree`) and one programme for it. -/
def inputWithChannelElem : Xml :=
  Xml.elem "tv".toList [] none
    [Xml.elem "channel".toList [("id".toList, "X".toList)] none [],
     Xml.elem "programme".toList [("channel".toList, "X".toList)] none []]

/-- An input guide document whose channel `X` element has a child, plus one
programme for `X`: covered for both filtered emitters. -/
def inputCoveredX : Xml :=
  Xml.elem "tv".toList [] none
    [Xml.elem "channel".toList [("id".toList, "X".toList)] none
       [Xml.elem "display-name".toList [] (some "XTV".toList) []],
     Xml.elem "programme".toList [("channel".toList, "X".toList)] none []]

/-- The document either filtered emitter produces from `entryX` and
`inputCoveredX`. -/
def outCoveredX : Xml :=
  Xml.elem "tv".toList [] none
    [rebuildChannel "P".toList "X".toList
      (Xml.elem "channel".toList [("id".toList, "X".toList)] none
        [Xml.elem "display-name".toList [] (some "XTV".toList) []]),
     Xml.elem "programme".toList [("channel".toList, "X".toList)] none []]

/-- Catalog entry named `FOO` (normalizes to `FOO`). -/
def catRawFOO : RawCatChannel :=
  RawCatChannel.mk "1".toList "x1".toList "en".toList (some "FOO".toList)

/-- Catalog entry named `Foo TV` (also normalizes to `FOO`). -/
def catRawFooTV : RawCatChannel :=
  RawCatChannel.mk "2".toList "x2".toList "en".toList (some "Foo TV".toList)

/-- One mapping document holding both colliding entries, `FOO` loaded
first. -/
def catCollide : List CatFile := [CatFile.mk "s".toList [catRawFOO, catRawFooTV]]

/-- The mapping data of the later-loaded colliding entry. -/
def dataFooTV : MapData :=
  MapData.mk "s".toList "2".toList "x2".toList "en".toList "Foo TV".toList

/-- A match entry for playlist name `A` scored 82 from document `f1`. -/
def entryA82 : MatchEntry :=
  MatchEntry.mk (PChannel.mk "A".toList "A".toList [] [] [])
    (some (FBMResult.mk (some gNews) 82 (some .Similarity))) (some "f1".toList)

/-- A match entry for playlist name `A` scored 95 from document `f2`. -/
def entryA95 : MatchEntry :=
  MatchEntry.mk (PChannel.mk "A".toList "A".toList [] [] [])
    (some (FBMResult.mk (some gExact) 95 (some .Similarity))) (some "f2".toList)

end HomeEpg

namespace HomeEpg

/-!
### Lemmas about `find_best_match`
-/

/-- The exact pass fails exactly when no display name cleans to the playlist
channel's cleaned name. -/
theorem exactPass_eq_none_iff (cn : PyStr) (epgs : List GuideChannel) :
    exactPass cn epgs = none ↔
      ∀ e ∈ epgs, ∀ d ∈ e.display_names, cleanChannelName d ≠ cn := by
  induction epgs with
  | nil => simp [exactPass]
  | cons e es ih =>
    simp only [exactPass]
    by_cases h : (e.display_names.any fun d => cleanChannelName d == cn) = true
    · rw [if_pos h]
      constructor
      · intro hfalse; cases hfalse
      · intro hall
        rcases List.any_eq_true.mp h with ⟨d, hd, hcd⟩
        exact absurd (eq_of_beq hcd) (hall e (by simp) d hd)
    · rw [if_neg h, ih]
      constructor
      · intro hall e' he' d hd
        rcases List.mem_cons.mp he' with he' | he'
        · subst he'
          intro hcd
          exact h (List.any_eq_true.mpr ⟨d, hd, beq_iff_eq.mpr hcd⟩)
        · exact hall e' he' d hd
      · intro hall e' he' d hd
        exact hall e' (List.mem_cons_of_mem _ he') d hd

/-- A successful exact pass exhibits a cleaned-name-identical display name. -/
theorem exactPass_eq_some (cn : PyStr) (epgs : List GuideChannel) (e : GuideChannel)
    (h : exactPass cn epgs = some e) :
    e ∈ epgs ∧ ∃ d ∈ e.display_names, cleanChannelName d = cn := by
  induction epgs with
  | nil => cases h
  | cons e' es ih =>
    rw [exactPass] at h
    by_cases ha : (e'.display_names.any fun d => cleanChannelName d == cn) = true
    · rw [if_pos ha] at h
      cases h
      rcases List.any_eq_true.mp ha with ⟨d, hd, hcd⟩
      exact ⟨by simp, d, hd, eq_of_beq hcd⟩
    · rw [if_neg ha] at h
      rcases ih h with ⟨hm, hd⟩
      exact ⟨List.mem_cons_of_mem _ hm, hd⟩

/-- An update step either keeps the method or sets the given label. -/
theorem fuzzyUpd_method (sc : Nat) (e : GuideChannel) (meth : MatchMethod) (st : FuzzyBest) :
    (fuzzyUpd sc e meth st).method = some meth ∨ (fuzzyUpd sc e meth st).method = st.method := by
  unfold fuzzyUpd
  split
  · exact Or.inl rfl
  · exact Or.inr rfl

/-- An update step with a non-`Exact` label keeps the method non-`Exact`. -/
theorem fuzzyUpd_method_ne_exact (sc : Nat) (e : GuideChannel) (meth : MatchMethod)
    (st : FuzzyBest) (hm : meth ≠ MatchMethod.Exact)
    (h : st.method ≠ some MatchMethod.Exact) :
    (fuzzyUpd sc e meth st).method ≠ some MatchMethod.Exact := by
  rcases fuzzyUpd_method sc e meth st with hh | hh <;> rw [hh]
  · simp [hm]
  · exact h

/-- One fuzzy step never labels the running best `Exact`. -/
theorem fuzzyStep_method_ne_exact (cn : PyStr) (st : FuzzyBest) (p : GuideChannel × PyStr)
    (h : st.method ≠ some MatchMethod.Exact) :
    (fuzzyStep cn st p).method ≠ some MatchMethod.Exact := by
  show (fuzzyUpd (fuzzTokenSetRatio cn (cleanChannelName p.2)) p.1 .TokenSet
      (fuzzyUpd (fuzzTokenSortRatio cn (cleanChannelName p.2)) p.1 .TokenSort
        (fuzzyUpd (fuzzPartialRatio cn (cleanChannelName p.2)) p.1 .PartialM
          (fuzzyUpd (fuzzRatio cn (cleanChannelName p.2)) p.1 .Similarity st)))).method ≠
    some MatchMethod.Exact
  exact fuzzyUpd_method_ne_exact _ _ _ _ (by decide)
    (fuzzyUpd_method_ne_exact _ _ _ _ (by decide)
      (fuzzyUpd_method_ne_exact _ _ _ _ (by decide)
        (fuzzyUpd_method_ne_exact _ _ _ _ (by decide) h)))

/-- The fuzzy pass never labels its best `Exact`. -/
theorem fuzzyBest_method_ne_exact (cn : PyStr) (epgs : List GuideChannel) :
    (fuzzyBest cn epgs).method ≠ some MatchMethod.Exact := by
  unfold fuzzyBest
  generalize fuzzyPairs epgs = pairs
  have h0 : (FuzzyBest.mk 0 none none).method ≠ some MatchMethod.Exact := by simp
  generalize FuzzyBest.mk 0 none none = st at h0 ⊢
  induction pairs generalizing st with
  | nil => exact h0
  | cons p ps ih => exact ih _ (fuzzyStep_method_ne_exact cn st p h0)

/-- Every `(channel, display name)` pair of the nested loops is a fuzzy
pair. -/
theorem mem_fuzzyPairs (epgs : List GuideChannel) (e : GuideChannel) (d : PyStr)
    (he : e ∈ epgs) (hd : d ∈ e.display_names) : (e, d) ∈ fuzzyPairs epgs := by
  unfold fuzzyPairs
  exact List.mem_flatMap.mpr ⟨e, he, List.mem_map.mpr ⟨d, hd, rfl⟩⟩

/-- `fuzz.ratio` of a string with itself is 100 (the equivalence guard). -/
theorem fuzzRatio_self (s : PyStr) : fuzzRatio s s = 100 := by
  simp [fuzzRatio]

end HomeEpg

namespace HomeEpg

/-!
### Claims C9, C10, C6, C1
-/

/-- C9: for every EPG document yielding at least one guide channel, calling
`match_channels` with an empty playlist list raises an uncaught
`ZeroDivisionError` in the match-percentage computation instead of
returning an empty match list. -/
theorem claimC9_theorem (epgs : List GuideChannel) (t : Int) (h : epgs ≠ []) :
    matchChannels [] epgs t = Except.error "ZeroDivisionError" := by
  simp [matchChannels, List.isEmpty_iff, h]

/-- Witness for C9 at a concrete one-channel guide list. -/
theorem claimC9_witness : matchChannels [] [gNews] 70 = Except.error "ZeroDivisionError" :=
  claimC9_theorem [gNews] 70 (by decide)

/-- A fuzzy step whose four scores are all zero cannot improve the fresh
state. -/
theorem fuzzyStep_zero (cn : PyStr) (p : GuideChannel × PyStr)
    (h1 : fuzzRatio cn (cleanChannelName p.2) = 0)
    (h2 : fuzzPartialRatio cn (cleanChannelName p.2) = 0)
    (h3 : fuzzTokenSortRatio cn (cleanChannelName p.2) = 0)
    (h4 : fuzzTokenSetRatio cn (cleanChannelName p.2) = 0) :
    fuzzyStep cn (FuzzyBest.mk 0 none none) p = FuzzyBest.mk 0 none none := by
  show fuzzyUpd (fuzzTokenSetRatio cn (cleanChannelName p.2)) p.1 .TokenSet
      (fuzzyUpd (fuzzTokenSortRatio cn (cleanChannelName p.2)) p.1 .TokenSort
        (fuzzyUpd (fuzzPartialRatio cn (cleanChannelName p.2)) p.1 .PartialM
          (fuzzyUpd (fuzzRatio cn (cleanChannelName p.2)) p.1 .Similarity
            (FuzzyBest.mk 0 none none)))) = FuzzyBest.mk 0 none none
  rw [h1, h2, h3, h4]
  simp [fuzzyUpd]

/-- With no positive comparison anywhere, the fuzzy pass ends at its initial
state. -/
theorem fuzzyBest_zero (cn : PyStr) (epgs : List GuideChannel)
    (h0 : ∀ p ∈ fuzzyPairs epgs,
      fuzzRatio cn (cleanChannelName p.2) = 0 ∧
      fuzzPartialRatio cn (cleanChannelName p.2) = 0 ∧
      fuzzTokenSortRatio cn (cleanChannelName p.2) = 0 ∧
      fuzzTokenSetRatio cn (cleanChannelName p.2) = 0) :
    fuzzyBest cn epgs = FuzzyBest.mk 0 none none := by
  unfold fuzzyBest
  generalize hps : fuzzyPairs epgs = pairs at h0
  clear hps
  induction pairs with
  | nil => rfl
  | cons p ps ih =>
    rcases h0 p (by simp) with ⟨h1, h2, h3, h4⟩
    simp only [List.foldl_cons, fuzzyStep_zero cn p h1 h2 h3 h4]
    exact ih (fun q hq => h0 q (List.mem_cons_of_mem _ hq))

/-- With no positive comparison anywhere, no display name can clean to the
playlist name, so the exact pass fails. -/
theorem exactPass_none_of_noPositive (cn : PyStr) (epgs : List GuideChannel)
    (h0 : ∀ p ∈ fuzzyPairs epgs, fuzzRatio cn (cleanChannelName p.2) = 0) :
    exactPass cn epgs = none := by
  rw [exactPass_eq_none_iff]
  intro e he d hd hcd
  have hp := h0 (e, d) (mem_fuzzyPairs epgs e d he hd)
  rw [hcd, fuzzRatio_self] at hp
  cases hp

/-- C10: a call of `find_best_match` with threshold at most 0 in which no
comparison produces a positive score (for example, with an empty guide
list) returns the record with `epg_channel = None`, score 0 and
`method = None` rather than the no-match sentinel `None`. -/
theorem claimC10_theorem (ch : PChannel) (epgs : List GuideChannel) (t : Int)
    (ht : t ≤ 0)
    (h0 : ∀ p ∈ fuzzyPairs epgs,
      fuzzRatio (cleanChannelName ch.clean_name) (cleanChannelName p.2) = 0 ∧
      fuzzPartialRatio (cleanChannelName ch.clean_name) (cleanChannelName p.2) = 0 ∧
      fuzzTokenSortRatio (cleanChannelName ch.clean_name) (cleanChannelName p.2) = 0 ∧
      fuzzTokenSetRatio (cleanChannelName ch.clean_name) (cleanChannelName p.2) = 0) :
    findBestMatch ch epgs t = some (FBMResult.mk none 0 none) := by
  have hE : exactPass (cleanChannelName ch.clean_name) epgs = none :=
    exactPass_none_of_noPositive _ _ (fun p hp => (h0 p hp).1)
  have hfb : fuzzyBest (cleanChannelName ch.clean_name) epgs = FuzzyBest.mk 0 none none :=
    fuzzyBest_zero _ _ h0
  simp only [findBestMatch, hE, hfb]
  rw [if_pos (by omega)]

/-- Witness for C10 at threshold 0 with an empty guide list. -/
theorem claimC10_witness :
    (0 : Int) ≤ 0 ∧ findBestMatch chESPN [] 0 = some (FBMResult.mk none 0 none) :=
  ⟨by decide, claimC10_theorem chESPN [] 0 (by decide) (by simp [fuzzyPairs])⟩

/-- Reduction of `find_best_match` when the exact pass succeeds: the
threshold plays no part. -/
theorem findBestMatch_of_exact (ch : PChannel) (epgs : List GuideChannel) (t : Int)
    (e : GuideChannel)
    (hE : exactPass (cleanChannelName ch.clean_name) epgs = some e) :
    findBestMatch ch epgs t = some (FBMResult.mk (some e) 100 (some .Exact)) := by
  simp only [findBestMatch, hE]

/-- Reduction of `find_best_match` when the exact pass fails: the fuzzy best
is thresholded. -/
theorem findBestMatch_of_fuzzy (ch : PChannel) (epgs : List GuideChannel) (t : Int)
    (hE : exactPass (cleanChannelName ch.clean_name) epgs = none) :
    findBestMatch ch epgs t =
      if ((fuzzyBest (cleanChannelName ch.clean_name) epgs).score : Int) ≥ t then
        some (FBMResult.mk (fuzzyBest (cleanChannelName ch.clean_name) epgs).target
          (fuzzyBest (cleanChannelName ch.clean_name) epgs).score
          (fuzzyBest (cleanChannelName ch.clean_name) epgs).method)
      else none := by
  simp only [findBestMatch, hE]

/-- C6 counterexample: an exact match is returned with score 100 even at
threshold 101, although the claim demands that any threshold strictly above
the returned score (including for exact matches) flips the result to
`None`. -/
theorem claimC6_counterexample :
    findBestMatch chESPN [gExact] 70 =
      some (FBMResult.mk (some gExact) 100 (some MatchMethod.Exact)) ∧
    findBestMatch chESPN [gExact] 101 =
      some (FBMResult.mk (some gExact) 100 (some MatchMethod.Exact)) := by
  constructor <;> decide

/-- C6 amended: for fuzzy-pass results (method not `Exact`) any threshold
strictly above the returned score yields `None`, and raising the threshold
never turns a `None` result into a match; exact matches, however, are
returned regardless of the threshold. -/
theorem claimC6_amended :
    (∀ (ch : PChannel) (epgs : List GuideChannel) (t t' : Int) (r : FBMResult),
      findBestMatch ch epgs t = some r → r.method ≠ some MatchMethod.Exact →
      (r.score : Int) < t' → findBestMatch ch epgs t' = none) ∧
    (∀ (ch : PChannel) (epgs : List GuideChannel) (t t' : Int),
      findBestMatch ch epgs t = none → t ≤ t' → findBestMatch ch epgs t' = none) := by
  constructor
  · intro ch epgs t t' r hsome hmeth hlt
    cases hE : exactPass (cleanChannelName ch.clean_name) epgs with
    | some e =>
      rw [findBestMatch_of_exact ch epgs t e hE] at hsome
      simp only [Option.some.injEq] at hsome
      exact absurd (by rw [← hsome]) hmeth
    | none =>
      rw [findBestMatch_of_fuzzy ch epgs t hE] at hsome
      rw [findBestMatch_of_fuzzy ch epgs t' hE]
      by_cases hge :
          ((fuzzyBest (cleanChannelName ch.clean_name) epgs).score : Int) ≥ t
      · rw [if_pos hge] at hsome
        simp only [Option.some.injEq] at hsome
        have hsc : r.score = (fuzzyBest (cleanChannelName ch.clean_name) epgs).score := by
          rw [← hsome]
        rw [if_neg (by rw [hsc] at hlt; omega)]
      · rw [if_neg hge] at hsome
        cases hsome
  · intro ch epgs t t' hnone hle
    cases hE : exactPass (cleanChannelName ch.clean_name) epgs with
    | some e =>
      rw [findBestMatch_of_exact ch epgs t e hE] at hnone
      cases hnone
    | none =>
      rw [findBestMatch_of_fuzzy ch epgs t hE] at hnone
      rw [findBestMatch_of_fuzzy ch epgs t' hE]
      by_cases hge :
          ((fuzzyBest (cleanChannelName ch.clean_name) epgs).score : Int) ≥ t
      · rw [if_pos hge] at hnone
        cases hnone
      · rw [if_neg (by omega)]

/-- Witness for C6 amended: the 75-point fuzzy match disappears at threshold
76 and stays gone at 90. -/
theorem claimC6_witness :
    findBestMatch chESPN [gESPM] 76 = none ∧ findBestMatch chESPN [gESPM] 90 = none :=
  ⟨claimC6_amended.1 chESPN [gESPM] 70 76
      (FBMResult.mk (some gESPM) 75 (some MatchMethod.Similarity))
      (by decide) (by decide) (by decide),
   claimC6_amended.2 chESPN [gESPM] 76 90 (by decide) (by decide)⟩

/-- C1 counterexample: against the single guide name `ESPN NEWS`, the
playlist channel `ESPN` has no exact match, yet `find_best_match` returns
score 100 with method `Partial match` (substring containment), although the
two cleaned strings differ — refuting both `score == 100 ⇒ method Exact`
and the claim that no fuzzy method returns 100 on non-identical normalized
strings. -/
theorem claimC1_counterexample :
    findBestMatch chESPN [gNews] 70 =
      some (FBMResult.mk (some gNews) 100 (some MatchMethod.PartialM)) ∧
    cleanChannelName "ESPN NEWS".toList ≠ cleanChannelName chESPN.clean_name := by
  constructor <;> decide

/-- C1 amended: a returned result has method `Exact match` exactly when some
display name is identical to the playlist name after normalization, and a
method-`Exact` result always has score 100; a returned score of 100 does
not imply the method is `Exact match`, since the fuzzy pass can also reach
100. -/
theorem claimC1_amended (ch : PChannel) (epgs : List GuideChannel) (t : Int) (r : FBMResult)
    (h : findBestMatch ch epgs t = some r) :
    (r.method = some MatchMethod.Exact ↔
      ∃ e ∈ epgs, ∃ d ∈ e.display_names,
        cleanChannelName d = cleanChannelName ch.clean_name) ∧
    (r.method = some MatchMethod.Exact → r.score = 100) := by
  cases hE : exactPass (cleanChannelName ch.clean_name) epgs with
  | some e =>
    rw [findBestMatch_of_exact ch epgs t e hE] at h
    simp only [Option.some.injEq] at h
    subst h
    refine ⟨⟨fun _ => ?_, fun _ => rfl⟩, fun _ => rfl⟩
    rcases exactPass_eq_some _ _ _ hE with ⟨he, d, hd, hcd⟩
    exact ⟨e, he, d, hd, hcd⟩
  | none =>
    rw [findBestMatch_of_fuzzy ch epgs t hE] at h
    by_cases hge : ((fuzzyBest (cleanChannelName ch.clean_name) epgs).score : Int) ≥ t
    · rw [if_pos hge] at h
      simp only [Option.some.injEq] at h
      subst h
      have hne := fuzzyBest_method_ne_exact (cleanChannelName ch.clean_name) epgs
      refine ⟨⟨fun hm => absurd hm hne, fun hex => ?_⟩, fun hm => absurd hm hne⟩
      rcases hex with ⟨e, he, d, hd, hcd⟩
      exact absurd hcd ((exactPass_eq_none_iff _ _).mp hE e he d hd)
    · rw [if_neg hge] at h
      cases h

/-- Witness for C1 amended at a concrete exact match. -/
theorem claimC1_witness :
    ((FBMResult.mk (some gExact) 100 (some MatchMethod.Exact)).method =
        some MatchMethod.Exact ↔
      ∃ e ∈ [gExact], ∃ d ∈ e.display_names,
        cleanChannelName d = cleanChannelName chESPN.clean_name) ∧
    ((FBMResult.mk (some gExact) 100 (some MatchMethod.Exact)).method =
        some MatchMethod.Exact →
      (FBMResult.mk (some gExact) 100 (some MatchMethod.Exact)).score = 100) :=
  claimC1_amended chESPN [gExact] 70 _ (by decide)

end HomeEpg
namespace HomeEpg

/-- Elements without children contribute only themselves to a descendant
search over a list. -/
theorem descsList_of_no_children (tag : PyStr) (chs : List Xml)
    (h : ∀ c ∈ chs, c.childrenOf = []) :
    descsList tag chs = chs.filter (fun c => c.tagOf == tag) := by
  induction chs with
  | nil => rfl
  | cons c cs ih =>
    have hc : descsOne tag c = [] := by
      cases c with
      | elem t a x ch =>
        have hch := h (Xml.elem t a x ch) (by simp)
        simp only [Xml.childrenOf] at hch
        rw [descsOne, hch]
        rfl
    rw [descsList, hc, ih (fun d hd => h d (List.mem_cons_of_mem _ hd))]
    by_cases ht : (c.tagOf == tag) = true
    · rw [if_pos ht]
      simp [List.filter_cons, ht]
    · rw [if_neg ht]
      simp [List.filter_cons, ht]

/-- Every element the channel-list emitter produces is a childless
`channel` element. -/
theorem generateChannelListDoc_children (ms : List CatMatch) (region : Option PyStr)
    (c : Xml) (hc : c ∈ (generateChannelListDoc ms region).childrenOf) :
    c.tagOf = "channel".toList ∧ c.childrenOf = [] := by
  unfold generateChannelListDoc at hc
  simp only [Xml.childrenOf] at hc
  rcases List.mem_filterMap.mp hc with ⟨m, _, hf⟩
  cases hmp : m.mapping with
  | none => rw [hmp] at hf; cases hf
  | some mp =>
    rw [hmp] at hf
    simp only [Option.some.injEq] at hf
    subst hf
    exact ⟨rfl, rfl⟩

/-- C3 amended: feeding the emitted channel-list document back through the
structured-document loader yields no channels at all — the loader requires
`display-name` children, which the channel-list emitter never writes (it
stores the name as element text) — so the emitted display-name set is not
reproduced. -/
theorem claimC3_amended (ms : List CatMatch) (region : Option PyStr) :
    loadPlaylistFromXml (generateChannelListDoc ms region) = [] := by
  unfold loadPlaylistFromXml
  rw [List.filterMap_eq_nil_iff]
  intro ch hch
  rw [show descsOne "channel".toList (generateChannelListDoc ms region)
      = descsList "channel".toList (generateChannelListDoc ms region).childrenOf from by
    cases hgen : generateChannelListDoc ms region with
    | elem t a x kids => rw [descsOne]; rfl] at hch
  rw [descsList_of_no_children _ _
      (fun c hc => (generateChannelListDoc_children ms region c hc).2)] at hch
  have hmem := List.mem_filter.mp hch
  have hkids : ch.childrenOf = [] :=
    (generateChannelListDoc_children ms region ch hmem.1).2
  have hdesc : descsOne "display-name".toList ch = [] := by
    cases ch with
    | elem t a x kids =>
      simp only [Xml.childrenOf] at hkids
      rw [descsOne, hkids]
      rfl
  rw [hdesc]
  rfl

/-- C3 counterexample: one mapped match named `BBC` emits a document whose
channel text set is `{BBC}`, yet the loader reproduces the empty set. -/
theorem claimC3_counterexample :
    (loadPlaylistFromXml (generateChannelListDoc [catBBC] none)).map PChannel.name = [] ∧
    channelListTexts [catBBC] none = ["BBC".toList] := by
  constructor <;> decide

end HomeEpg
namespace HomeEpg

/-- Every programme the filtered emitter writes is tagged `programme` and
carries a `channel` attribute drawn from the matched-id set. -/
theorem genFilteredProgs_spec (ids : List PyStr) (input : Xml) (x : Xml)
    (hx : x ∈ genFilteredProgs ids input) :
    x.tagOf = "programme".toList ∧
      ∃ cid, x.attr "channel".toList = some cid ∧ cid ∈ ids := by
  rcases List.mem_filterMap.mp hx with ⟨p, _, hf⟩
  cases hac : p.attr "channel".toList with
  | none => rw [hac] at hf; cases hf
  | some cid =>
    rw [hac] at hf
    dsimp only at hf
    by_cases hin : ids.contains cid = true
    · rw [if_pos hin] at hf
      simp only [Option.some.injEq] at hf
      subst hf
      refine ⟨rfl, cid, ?_, List.mem_of_elem_eq_true hin⟩
      simp only [Xml.attr, Xml.attrsOf] at hac ⊢
      exact hac
    · rw [if_neg hin] at hf
      cases hf

/-- Every channel the filtered emitter writes is tagged `channel`. -/
theorem genFilteredChans_tag (incl : List MatchEntry) (input : Xml) (x : Xml)
    (hx : x ∈ genFilteredChans incl input) : x.tagOf = "channel".toList := by
  rcases List.mem_flatMap.mp hx with ⟨m, _, hm⟩
  cases hid : entryChanId m with
  | none => rw [hid] at hm; cases hm
  | some cid =>
    rw [hid] at hm
    rcases List.mem_map.mp hm with ⟨ch, _, hch⟩
    rw [← hch]
    rfl

/-- When an included id has a channel element in the input, the emitter
writes a channel element with that id. -/
theorem genFilteredChans_covers (incl : List MatchEntry) (input : Xml) (m : MatchEntry)
    (cid : PyStr) (hm : m ∈ incl) (hid : entryChanId m = some cid)
    (ch : Xml) (hch : ch ∈ descsOne "channel".toList input)
    (hcha : ch.attr "id".toList = some cid) :
    ∃ x ∈ genFilteredChans incl input, x.attr "id".toList = some cid := by
  refine ⟨rebuildChannel m.playlist_channel.name cid ch, ?_, by rfl⟩
  apply List.mem_flatMap.mpr
  refine ⟨m, hm, ?_⟩
  rw [hid]
  exact List.mem_map.mpr ⟨ch, List.mem_filter.mpr ⟨hch, by simpa using hcha⟩, rfl⟩

/-- Every channel `epg_matcher.py`'s filtered emitter writes is tagged
`channel`. -/
theorem genFilteredChansMatcher_tag (incl : List MatchEntry) (input : Xml) (x : Xml)
    (hx : x ∈ genFilteredChansMatcher incl input) : x.tagOf = "channel".toList := by
  rcases List.mem_flatMap.mp hx with ⟨m, _, hm⟩
  cases hid : entryChanId m with
  | none => rw [hid] at hm; cases hm
  | some cid =>
    rw [hid] at hm
    have hm2 : x ∈ (match firstChanFor input cid with
      | none => []
      | some ch => if ch.childrenOf.isEmpty then []
        else [rebuildChannel m.playlist_channel.name cid ch]) := hm
    cases hfc : firstChanFor input cid with
    | none => rw [hfc] at hm2; cases hm2
    | some ch =>
      rw [hfc] at hm2
      have hm3 : x ∈ (if ch.childrenOf.isEmpty then []
        else [rebuildChannel m.playlist_channel.name cid ch]) := hm2
      by_cases he : ch.childrenOf.isEmpty = true
      · rw [if_pos he] at hm3
        cases hm3
      · rw [if_neg he] at hm3
        rw [List.mem_singleton.mp hm3]
        rfl

/-- When the first input channel element carrying an included id exists and
has children, `epg_matcher.py`'s emitter writes a channel element with that
id. -/
theorem genFilteredChansMatcher_covers (incl : List MatchEntry) (input : Xml)
    (m : MatchEntry) (cid : PyStr) (hm : m ∈ incl) (hid : entryChanId m = some cid)
    (ch : Xml) (hfc : firstChanFor input cid = some ch) (hne : ch.childrenOf ≠ []) :
    ∃ x ∈ genFilteredChansMatcher incl input, x.attr "id".toList = some cid := by
  have he : ch.childrenOf.isEmpty = false := by
    cases hch : ch.childrenOf with
    | nil => exact absurd hch hne
    | cons a l => rfl
  refine ⟨rebuildChannel m.playlist_channel.name cid ch, ?_, by rfl⟩
  apply List.mem_flatMap.mpr
  refine ⟨m, hm, ?_⟩
  rw [hid]
  show rebuildChannel m.playlist_channel.name cid ch ∈
    (match firstChanFor input cid with
     | none => []
     | some ch2 => if ch2.childrenOf.isEmpty then []
       else [rebuildChannel m.playlist_channel.name cid ch2])
  rw [hfc]
  show rebuildChannel m.playlist_channel.name cid ch ∈
    (if ch.childrenOf.isEmpty then []
     else [rebuildChannel m.playlist_channel.name cid ch])
  rw [he, if_neg Bool.false_ne_true]
  exact List.mem_singleton.mpr rfl

/-- In every document `match_channels.py`'s filtered emitter produces, each
top-level programme's `channel` attribute lies in the matched-id set; and
when every matched id has a channel element in the input document, each
programme's `channel` attribute is the id of some channel element of the
output (no orphans). -/
theorem generateFilteredEpgXml_spec (ms : List MatchEntry) (input : Xml) (op : Bool) (out : Xml)
    (hout : generateFilteredEpgXml ms input op = some out) :
    (∀ p ∈ xmlTopChildren out "programme".toList,
        ∃ cid, p.attr "channel".toList = some cid ∧ cid ∈ includedIds ms op) ∧
    ((∀ cid ∈ includedIds ms op,
        ∃ ch ∈ descsOne "channel".toList input, ch.attr "id".toList = some cid) →
      ∀ p ∈ xmlTopChildren out "programme".toList,
        ∃ cid, p.attr "channel".toList = some cid ∧ cid ∈ outputChannelIds out) := by
  simp only [generateFilteredEpgXml] at hout
  by_cases h1 : (includedEntries ms op).isEmpty = true
  · rw [if_pos h1] at hout; cases hout
  rw [if_neg h1] at hout
  by_cases h2 : ((includedEntries ms op).any fun m => (entryChanId m).isNone) = true
  · rw [if_pos h2] at hout; cases hout
  rw [if_neg h2] at hout
  simp only [Option.some.injEq] at hout
  have hids : (includedEntries ms op).filterMap entryChanId = includedIds ms op := rfl
  rw [hids] at hout
  subst hout
  have htop : ∀ tg : PyStr,
      xmlTopChildren (Xml.elem "tv".toList input.attrsOf none
        (genFilteredChans (includedEntries ms op) input ++
          genFilteredProgs (includedIds ms op) input)) tg =
      (genFilteredChans (includedEntries ms op) input).filter (fun c => c.tagOf == tg) ++
      (genFilteredProgs (includedIds ms op) input).filter (fun c => c.tagOf == tg) := by
    intro tg
    simp [xmlTopChildren, Xml.childrenOf, List.filter_append]
  have hprogsfilter :
      (genFilteredProgs (includedIds ms op) input).filter
        (fun c => c.tagOf == "programme".toList) =
      genFilteredProgs (includedIds ms op) input := by
    apply List.filter_eq_self.mpr
    intro x hx
    simp [(genFilteredProgs_spec _ _ _ hx).1]
  have hchansfilter :
      (genFilteredChans (includedEntries ms op) input).filter
        (fun c => c.tagOf == "programme".toList) = [] := by
    apply List.filter_eq_nil_iff.mpr
    intro x hx
    simp [genFilteredChans_tag _ _ _ hx]
  constructor
  · intro p hp
    rw [htop, hchansfilter, hprogsfilter, List.nil_append] at hp
    exact (genFilteredProgs_spec _ _ _ hp).2
  · intro hall p hp
    rw [htop, hchansfilter, hprogsfilter, List.nil_append] at hp
    rcases (genFilteredProgs_spec _ _ _ hp).2 with ⟨cid, hattr, hcid⟩
    refine ⟨cid, hattr, ?_⟩
    rcases hall cid hcid with ⟨ch, hch, hcha⟩
    rcases List.mem_filterMap.mp hcid with ⟨m, hm, hmid⟩
    rcases genFilteredChans_covers (includedEntries ms op) input m cid hm hmid ch hch hcha
      with ⟨x, hx, hxa⟩
    unfold outputChannelIds
    apply List.mem_filterMap.mpr
    refine ⟨x, ?_, hxa⟩
    rw [htop]
    apply List.mem_append_left
    apply List.mem_filter.mpr
    exact ⟨hx, by simp [genFilteredChans_tag _ _ _ hx]⟩

/-- In every document `epg_matcher.py`'s filtered emitter produces, each
top-level programme's `channel` attribute lies in the matched-id set; and
when for every matched id the first input channel element with that id
exists and has children (so the falsy-template skip cannot fire), each
programme's `channel` attribute is the id of some channel element of the
output. -/
theorem generateFilteredEpgXmlMatcher_spec (ms : List MatchEntry) (input : Xml) (op : Bool)
    (out : Xml) (hout : generateFilteredEpgXmlMatcher ms input op = some out) :
    (∀ p ∈ xmlTopChildren out "programme".toList,
        ∃ cid, p.attr "channel".toList = some cid ∧ cid ∈ includedIds ms op) ∧
    ((∀ cid ∈ includedIds ms op,
        ∃ ch, firstChanFor input cid = some ch ∧ ch.childrenOf ≠ []) →
      ∀ p ∈ xmlTopChildren out "programme".toList,
        ∃ cid, p.attr "channel".toList = some cid ∧ cid ∈ outputChannelIds out) := by
  simp only [generateFilteredEpgXmlMatcher] at hout
  by_cases h1 : (includedEntries ms op).isEmpty = true
  · rw [if_pos h1] at hout; cases hout
  rw [if_neg h1] at hout
  by_cases h2 : ((includedEntries ms op).any fun m => (entryChanId m).isNone) = true
  · rw [if_pos h2] at hout; cases hout
  rw [if_neg h2] at hout
  simp only [Option.some.injEq] at hout
  have hids : (includedEntries ms op).filterMap entryChanId = includedIds ms op := rfl
  rw [hids] at hout
  subst hout
  have htop : ∀ tg : PyStr,
      xmlTopChildren (Xml.elem "tv".toList input.attrsOf none
        (genFilteredChansMatcher (includedEntries ms op) input ++
          genFilteredProgs (includedIds ms op) input)) tg =
      (genFilteredChansMatcher (includedEntries ms op) input).filter
        (fun c => c.tagOf == tg) ++
      (genFilteredProgs (includedIds ms op) input).filter (fun c => c.tagOf == tg) := by
    intro tg
    simp [xmlTopChildren, Xml.childrenOf, List.filter_append]
  have hprogsfilter :
      (genFilteredProgs (includedIds ms op) input).filter
        (fun c => c.tagOf == "programme".toList) =
      genFilteredProgs (includedIds ms op) input := by
    apply List.filter_eq_self.mpr
    intro x hx
    simp [(genFilteredProgs_spec _ _ _ hx).1]
  have hchansfilter :
      (genFilteredChansMatcher (includedEntries ms op) input).filter
        (fun c => c.tagOf == "programme".toList) = [] := by
    apply List.filter_eq_nil_iff.mpr
    intro x hx
    simp [genFilteredChansMatcher_tag _ _ _ hx]
  constructor
  · intro p hp
    rw [htop, hchansfilter, hprogsfilter, List.nil_append] at hp
    exact (genFilteredProgs_spec _ _ _ hp).2
  · intro hall p hp
    rw [htop, hchansfilter, hprogsfilter, List.nil_append] at hp
    rcases (genFilteredProgs_spec _ _ _ hp).2 with ⟨cid, hattr, hcid⟩
    refine ⟨cid, hattr, ?_⟩
    rcases hall cid hcid with ⟨ch, hfc, hne⟩
    rcases List.mem_filterMap.mp hcid with ⟨m, hm, hmid⟩
    rcases genFilteredChansMatcher_covers (includedEntries ms op) input m cid hm hmid ch hfc hne
      with ⟨x, hx, hxa⟩
    unfold outputChannelIds
    apply List.mem_filterMap.mpr
    refine ⟨x, ?_, hxa⟩
    rw [htop]
    apply List.mem_append_left
    apply List.mem_filter.mpr
    exact ⟨hx, by simp [genFilteredChansMatcher_tag _ _ _ hx]⟩

/-- C4 amended: in both versions of `generate_filtered_epg_xml`, every
emitted programme's `channel` attribute lies in the matched-id set.  For
`match_channels.py`, if every matched id has a channel element in the input
document, every programme's `channel` attribute is the id of some emitted
channel element (no orphans).  For `epg_matcher.py` the proviso must be
stronger: the first input channel element with each matched id must exist
and have children, because `if not channel_template: continue` skips a
found-but-childless template (an `ElementTree` element with no children is
falsy) while the programmes are still copied. -/
theorem claimC4_amended (ms : List MatchEntry) (input : Xml) (op : Bool) :
    (∀ out, generateFilteredEpgXml ms input op = some out →
      (∀ p ∈ xmlTopChildren out "programme".toList,
          ∃ cid, p.attr "channel".toList = some cid ∧ cid ∈ includedIds ms op) ∧
      ((∀ cid ∈ includedIds ms op,
          ∃ ch ∈ descsOne "channel".toList input, ch.attr "id".toList = some cid) →
        ∀ p ∈ xmlTopChildren out "programme".toList,
          ∃ cid, p.attr "channel".toList = some cid ∧ cid ∈ outputChannelIds out)) ∧
    (∀ out, generateFilteredEpgXmlMatcher ms input op = some out →
      (∀ p ∈ xmlTopChildren out "programme".toList,
          ∃ cid, p.attr "channel".toList = some cid ∧ cid ∈ includedIds ms op) ∧
      ((∀ cid ∈ includedIds ms op,
          ∃ ch, firstChanFor input cid = some ch ∧ ch.childrenOf ≠ []) →
        ∀ p ∈ xmlTopChildren out "programme".toList,
          ∃ cid, p.attr "channel".toList = some cid ∧ cid ∈ outputChannelIds out)) :=
  ⟨fun out hout => generateFilteredEpgXml_spec ms input op out hout,
   fun out hout => generateFilteredEpgXmlMatcher_spec ms input op out hout⟩

/-- C4 counterexample, both failure modes.  In `match_channels.py`, a
matched id `X` with no channel element in the input still has its programmes
copied (an orphan).  In `epg_matcher.py`, even an input that carries a
channel `X` element (full id coverage, third conjunct) orphans the
programmes when that element is childless, because the falsy template is
skipped. -/
theorem claimC4_counterexample :
    (generateFilteredEpgXml [entryX] inputNoChannelElem false).map outputChannelIds
      = some [] ∧
    (generateFilteredEpgXml [entryX] inputNoChannelElem false).map
        (fun d => (xmlTopChildren d "programme".toList).filterMap
          (fun p => p.attr "channel".toList))
      = some ["X".toList] ∧
    (descsOne "channel".toList inputWithChannelElem).filterMap
        (fun c => c.attr "id".toList) = ["X".toList] ∧
    (generateFilteredEpgXmlMatcher [entryX] inputWithChannelElem false).map outputChannelIds
      = some [] ∧
    (generateFilteredEpgXmlMatcher [entryX] inputWithChannelElem false).map
        (fun d => (xmlTopChildren d "programme".toList).filterMap
          (fun p => p.attr "channel".toList))
      = some ["X".toList] := by
  refine ⟨?_, ?_, ?_, ?_, ?_⟩ <;> decide

/-- Witness for C4 amended at a concrete input covered for both emitters:
the `match_channels.py` half gives programme-ids-in-matched-set, the
`epg_matcher.py` half gives no-orphans under its proviso. -/
theorem claimC4_witness :
    (∀ p ∈ xmlTopChildren outCoveredX "programme".toList,
        ∃ cid, p.attr "channel".toList = some cid ∧ cid ∈ includedIds [entryX] false) ∧
    (∀ p ∈ xmlTopChildren outCoveredX "programme".toList,
        ∃ cid, p.attr "channel".toList = some cid ∧ cid ∈ outputChannelIds outCoveredX) :=
  ⟨((claimC4_amended [entryX] inputCoveredX false).1 outCoveredX rfl).1,
   ((claimC4_amended [entryX] inputCoveredX false).2 outCoveredX rfl).2 (by
      intro cid hcid
      have h2 : cid ∈ ["X".toList] := hcid
      have h1 : cid = "X".toList := by simpa using h2
      refine ⟨Xml.elem "channel".toList [("id".toList, "X".toList)] none
        [Xml.elem "display-name".toList [] (some "XTV".toList) []], ?_, ?_⟩
      · rw [h1]
        rfl
      · exact List.cons_ne_nil _ _)⟩

end HomeEpg
namespace HomeEpg

/-- Inversion of the per-line parser: a produced record's name is the
stripped text after the first comma of its `#EXTINF` line, and its external
id is the first `tvg-id` attribute value on that line (empty when
absent). -/
theorem parseExtinfRecord_spec (region : Option PyStr) (line next : PyStr) (r : PChannel)
    (h : parseExtinfRecord region line next = some r) :
    pyStartsWith line "#EXTINF".toList = true ∧
    ∃ tail, firstCommaTail line = some tail ∧
      r.name = pyStrip tail ∧ r.tvg_id = (tvgIdScan line).getD [] := by
  unfold parseExtinfRecord at h
  cases hb : pyStartsWith line "#EXTINF".toList with
  | false => rw [hb] at h; cases h
  | true =>
    rw [hb] at h
    simp only [Bool.not_true, Bool.false_eq_true, if_false] at h
    cases hct : firstCommaTail line with
    | none => rw [hct] at h; cases h
    | some tail =>
      rw [hct] at h
      dsimp only at h
      refine ⟨rfl, tail, rfl, ?_⟩
      cases hk : (match region with
          | some p => pyStartsWith (pyStrip tail) p
          | none => true) with
      | false =>
        rw [hk] at h
        simp only [Bool.not_false, if_true] at h
        cases h
      | true =>
        rw [hk] at h
        simp only [Bool.not_true, Bool.false_eq_true, if_false] at h
        cases hnx : pyStartsWith next "#".toList with
        | true => rw [hnx] at h; simp only [if_true] at h; cases h
        | false =>
          rw [hnx] at h
          simp only [Bool.false_eq_true, if_false] at h
          cases h
          exact ⟨rfl, rfl⟩

/-- C7 amended: every record the line-oriented loader yields takes its name
from the stripped text after the first comma (not the last) of its
`#EXTINF` line, and its external id from that line's first
`tvg-id="..."` attribute (empty otherwise). -/
theorem claimC7_amended (region : Option PyStr) (lines : List PyStr) (r : PChannel)
    (hr : r ∈ loadPlaylistM3U region lines) :
    ∃ line ∈ lines, pyStartsWith line "#EXTINF".toList = true ∧
      ∃ tail, firstCommaTail line = some tail ∧
        r.name = pyStrip tail ∧ r.tvg_id = (tvgIdScan line).getD [] := by
  induction lines with
  | nil => cases hr
  | cons l rest ih =>
    cases rest with
    | nil => cases hr
    | cons l2 rest2 =>
      rw [loadPlaylistM3U] at hr
      cases hpe : parseExtinfRecord region l l2 with
      | none =>
        rw [hpe] at hr
        rcases ih hr with ⟨line, hline, hspec⟩
        exact ⟨line, List.mem_cons_of_mem _ hline, hspec⟩
      | some r0 =>
        rw [hpe] at hr
        rcases List.mem_cons.mp hr with hr | hr
        · subst hr
          rcases parseExtinfRecord_spec region l l2 r hpe with ⟨hb, hspec⟩
          exact ⟨l, by simp, hb, hspec⟩
        · rcases ih hr with ⟨line, hline, hspec⟩
          exact ⟨line, List.mem_cons_of_mem _ hline, hspec⟩

/-- C7 counterexample: on the metadata line `#EXTINF:-1,A,B` the produced
record is named `A,B` — the text after the first comma — not `B`, the text
after the last comma that the claim demands. -/
theorem claimC7_counterexample :
    (loadPlaylistM3U none ["#EXTINF:-1,A,B".toList, "http://u".toList]).map PChannel.name
      = ["A,B".toList] ∧
    "A,B".toList ≠ "B".toList := by
  constructor <;> decide

/-- Witness for C7 amended at the concrete two-line playlist. -/
theorem claimC7_witness :
    ∃ line ∈ ["#EXTINF:-1,A,B".toList, "http://u".toList],
      pyStartsWith line "#EXTINF".toList = true ∧
      ∃ tail, firstCommaTail line = some tail ∧
        (PChannel.mk "A,B".toList "A,B".toList [] "#EXTINF:-1,A,B".toList
          "http://u".toList).name = pyStrip tail ∧
        (PChannel.mk "A,B".toList "A,B".toList [] "#EXTINF:-1,A,B".toList
          "http://u".toList).tvg_id = (tvgIdScan line).getD [] :=
  claimC7_amended none ["#EXTINF:-1,A,B".toList, "http://u".toList]
    (PChannel.mk "A,B".toList "A,B".toList [] "#EXTINF:-1,A,B".toList "http://u".toList)
    (by decide)

end HomeEpg
namespace HomeEpg

/-- Spec-side association list: first-seen keys paired with their group's
surviving entry. -/
theorem firstKeys_append_singleton (l : List MatchEntry) (m : MatchEntry) :
    firstKeys (l ++ [m]) =
      if (firstKeys l).contains m.playlist_channel.name then firstKeys l
      else firstKeys l ++ [m.playlist_channel.name] := by
  unfold firstKeys
  rw [List.foldl_append]
  rfl

/-- Membership in the accumulated first-seen key list. -/
theorem mem_firstKeys_aux (l : List MatchEntry) (ks : List PyStr) (n : PyStr) :
    (n ∈ l.foldl
        (fun ks m =>
          if ks.contains m.playlist_channel.name then ks
          else ks ++ [m.playlist_channel.name]) ks) ↔
      n ∈ ks ∨ ∃ m ∈ l, m.playlist_channel.name = n := by
  induction l generalizing ks with
  | nil => simp
  | cons m l ih =>
    rw [List.foldl_cons, ih]
    have hstep : (n ∈ if ks.contains m.playlist_channel.name then ks
        else ks ++ [m.playlist_channel.name]) ↔
        n ∈ ks ∨ m.playlist_channel.name = n := by
      by_cases hc : ks.contains m.playlist_channel.name = true
      · rw [if_pos hc]
        constructor
        · exact fun h => Or.inl h
        · rintro (h | h)
          · exact h
          · rw [← h]
            exact List.mem_of_elem_eq_true hc
      · rw [if_neg hc]
        simp [List.mem_append, eq_comm]
    rw [hstep]
    constructor
    · rintro (h | h)
      · rcases h with h | h
        · exact Or.inl h
        · exact Or.inr ⟨m, by simp, h⟩
      · rcases h with ⟨m', hm', hn⟩
        exact Or.inr ⟨m', List.mem_cons_of_mem _ hm', hn⟩
    · rintro (h | h)
      · exact Or.inl (Or.inl h)
      · rcases h with ⟨m', hm', hn⟩
        rcases List.mem_cons.mp hm' with h' | h'
        · subst h'
          exact Or.inl (Or.inr hn)
        · exact Or.inr ⟨m', h', hn⟩

/-- A name appears among the first-seen keys exactly when some entry carries
it. -/
theorem mem_firstKeys (l : List MatchEntry) (n : PyStr) :
    n ∈ firstKeys l ↔ ∃ m ∈ l, m.playlist_channel.name = n := by
  rw [firstKeys, mem_firstKeys_aux]
  simp

/-- The group reducer fails exactly when no entry carries the name. -/
theorem specGroup_eq_none_iff (l : List MatchEntry) (n : PyStr) :
    specGroup l n = none ↔ ∀ m ∈ l, m.playlist_channel.name ≠ n := by
  unfold specGroup
  cases hf : l.filter (fun m => m.playlist_channel.name == n) with
  | nil =>
    simp only [true_iff]
    intro m hm hn
    have : m ∈ l.filter (fun m => m.playlist_channel.name == n) :=
      List.mem_filter.mpr ⟨hm, by simp [hn]⟩
    rw [hf] at this
    cases this
  | cons x t =>
    constructor
    · intro hfalse; cases hfalse
    · intro hall
      have hx : x ∈ l.filter (fun m => m.playlist_channel.name == n) := by rw [hf]; simp
      rcases List.mem_filter.mp hx with ⟨hl, hn⟩
      exact absurd (by simpa using hn) (hall x hl)

/-- Unfolding lookup over a cons cell. -/
theorem alistLookup_cons {α : Type} (p : PyStr × α) (rest : List (PyStr × α)) (k : PyStr) :
    alistLookup (p :: rest) k =
      if (p.1 == k) = true then some p.2 else alistLookup rest k := by
  unfold alistLookup
  rw [List.find?_cons]
  by_cases h : (p.1 == k) = true
  · rw [h]
    rfl
  · rw [show (p.1 == k) = false from by simpa using h]
    rfl

/-- Lookup in a key-indexed `filterMap` association list. -/
theorem alistLookup_filterMap (ks : List PyStr) (g : PyStr → Option MatchEntry) (k : PyStr) :
    alistLookup (ks.filterMap (fun n => (g n).map (fun v => (n, v)))) k =
      if k ∈ ks then g k else none := by
  induction ks with
  | nil => rfl
  | cons n ns ih =>
    rw [List.filterMap_cons]
    cases hg : g n with
    | none =>
      simp only [Option.map_none']
      rw [ih]
      by_cases hk : k = n
      · subst hk
        by_cases hmem : k ∈ ns
        · rw [if_pos hmem, if_pos (by simp)]
        · rw [if_neg hmem, if_pos (by simp), hg]
      · by_cases hmem : k ∈ ns
        · rw [if_pos hmem, if_pos (List.mem_cons_of_mem _ hmem)]
        · rw [if_neg hmem, if_neg (by simp [hk, hmem])]
    | some v =>
      simp only [Option.map_some']
      rw [alistLookup_cons]
      by_cases hk : ((n, v).1 == k) = true
      · have hkn : k = n := (eq_of_beq hk).symm
        subst hkn
        rw [if_pos hk, if_pos (by simp), hg]
      · rw [if_neg hk, ih]
        have hkn : ¬ k = n := fun h => hk (by simp [h])
        by_cases hmem : k ∈ ns
        · rw [if_pos hmem, if_pos (List.mem_cons_of_mem _ hmem)]
        · rw [if_neg hmem, if_neg (by simp [hkn, hmem])]

/-- The spec reducer in conditional form: it agrees with the loop's
replacement test. -/
theorem specPick_eq_ite (ex m : MatchEntry) :
    specPick ex m = if shouldReplace ex m then m else ex := by
  cases hex : ex.epg_match with
  | none =>
    cases hm : m.epg_match with
    | none => simp [specPick, shouldReplace, hex, hm]
    | some b => simp [specPick, shouldReplace, hex, hm]
  | some a =>
    cases hm : m.epg_match with
    | none => simp [specPick, shouldReplace, hex, hm]
    | some b =>
      simp only [specPick, shouldReplace, hex, hm, entryScore, Option.isNone_some,
        Option.isSome_some, Bool.false_and, Bool.true_and, Bool.false_or]
      by_cases hgt : b.score > a.score
      · rw [if_pos hgt, if_pos (by simpa using hgt)]
      · rw [if_neg hgt, if_neg (by simpa using hgt)]

/-- Appending one entry updates exactly its own group, by one `specPick`. -/
theorem specGroup_append_singleton (l : List MatchEntry) (m : MatchEntry) (n : PyStr) :
    specGroup (l ++ [m]) n =
      if m.playlist_channel.name = n then
        match specGroup l n with
        | none => some m
        | some ex => some (specPick ex m)
      else specGroup l n := by
  unfold specGroup
  rw [List.filter_append]
  by_cases hk : m.playlist_channel.name = n
  · rw [if_pos hk]
    rw [show List.filter (fun m => m.playlist_channel.name == n) [m] = [m] by simp [hk]]
    cases hf : l.filter (fun m => m.playlist_channel.name == n) with
    | nil => rfl
    | cons h t =>
      simp only [List.cons_append]
      rw [List.foldl_append]
      rfl
  · rw [if_neg hk]
    rw [show List.filter (fun m => m.playlist_channel.name == n) [m] = [] by simp [hk]]
    rw [List.append_nil]

end HomeEpg
namespace HomeEpg

/-- `contains` is false off the list. -/
theorem contains_eq_false_of_not_mem (l : List PyStr) (a : PyStr) (h : a ∉ l) :
    l.contains a = false := by
  cases hc : l.contains a with
  | false => rfl
  | true => exact absurd (List.mem_of_elem_eq_true hc) h

/-- The consolidation dict equals the spec-side association list: one entry
per first-seen name, holding that name group's surviving match. -/
theorem consolidateAssoc_eq_spec (l : List MatchEntry) :
    consolidateAssoc l =
      (firstKeys l).filterMap (fun n => (specGroup l n).map (fun v => (n, v))) := by
  induction l using List.reverseRecOn with
  | nil => rfl
  | append_singleton l m ih =>
    rw [consolidateAssoc, List.foldl_append, List.foldl_cons, List.foldl_nil,
      show List.foldl consolidateStep [] l = consolidateAssoc l from rfl, ih]
    simp only [consolidateStep]
    rw [alistLookup_filterMap]
    by_cases hmem : m.playlist_channel.name ∈ firstKeys l
    · rw [if_pos hmem]
      rcases (mem_firstKeys l m.playlist_channel.name).mp hmem with ⟨m0, hm0, hname⟩
      cases hex : specGroup l m.playlist_channel.name with
      | none =>
        exact absurd hname ((specGroup_eq_none_iff l m.playlist_channel.name).mp hex m0 hm0)
      | some ex =>
        dsimp only
        rw [firstKeys_append_singleton,
          if_pos (List.elem_eq_true_of_mem hmem)]
        by_cases hrep : shouldReplace ex m = true
        · rw [if_pos hrep]
          unfold alistOverwrite
          rw [List.map_filterMap]
          apply List.filterMap_congr
          intro n hn
          rw [Option.map_map, specGroup_append_singleton]
          by_cases hk : m.playlist_channel.name = n
          · subst hk
            rw [if_pos rfl, hex]
            dsimp only
            rw [specPick_eq_ite, if_pos hrep]
            simp [Function.comp]
          · rw [if_neg hk]
            cases hg : specGroup l n with
            | none => rfl
            | some v =>
              simp only [Option.map_some', Function.comp]
              have hnk : ¬ n = m.playlist_channel.name := fun hnk => hk hnk.symm
              simp [hnk]
        · rw [if_neg hrep]
          apply List.filterMap_congr
          intro n hn
          rw [specGroup_append_singleton]
          by_cases hk : m.playlist_channel.name = n
          · subst hk
            rw [if_pos rfl, hex]
            dsimp only
            rw [specPick_eq_ite, if_neg hrep]
          · rw [if_neg hk]
    · rw [if_neg hmem]
      dsimp only
      rw [firstKeys_append_singleton,
        if_neg (by rw [contains_eq_false_of_not_mem _ _ hmem]; simp),
        List.filterMap_append]
      have htail : List.filterMap
          (fun n => (specGroup (l ++ [m]) n).map (fun v => (n, v)))
          [m.playlist_channel.name] = [(m.playlist_channel.name, m)] := by
        rw [List.filterMap_cons, specGroup_append_singleton, if_pos rfl,
          show specGroup l m.playlist_channel.name = none from
            (specGroup_eq_none_iff l m.playlist_channel.name).mpr
              (fun m' hm' hn => hmem ((mem_firstKeys l _).mpr ⟨m', hm', hn⟩))]
        rfl
      rw [htail]
      congr 1
      apply List.filterMap_congr
      intro n hn
      rw [specGroup_append_singleton,
        if_neg (fun hkk => hmem (by rw [hkk]; exact hn))]

/-- The spec reducer always returns one of its two arguments. -/
theorem specPick_mem (ex m : MatchEntry) : specPick ex m = ex ∨ specPick ex m = m := by
  rw [specPick_eq_ite]
  by_cases h : shouldReplace ex m = true
  · rw [if_pos h]; exact Or.inr rfl
  · rw [if_neg h]; exact Or.inl rfl

/-- A left fold of the spec reducer stays among the folded entries. -/
theorem foldl_specPick_mem (t : List MatchEntry) (x : MatchEntry) :
    t.foldl specPick x ∈ x :: t := by
  induction t generalizing x with
  | nil => simp
  | cons y t ih =>
    rw [List.foldl_cons]
    rcases List.mem_cons.mp (ih (specPick x y)) with h | h
    · rcases specPick_mem x y with hp | hp
      · rw [h, hp]
        exact List.mem_cons_self _ _
      · rw [h, hp]
        exact List.mem_cons_of_mem _ (List.mem_cons_self _ _)
    · exact List.mem_cons_of_mem _ (List.mem_cons_of_mem _ h)

/-- C2: the consolidation of `process_epg_files` keeps exactly one result
per first-seen playlist name, chosen by the spec rule — matched beats
unmatched, strictly higher score replaces, first-seen wins a tie — and
every surviving result is one of the incoming results, carrying its own
source-document tag unchanged. -/
theorem claimC2_theorem (l : List MatchEntry) :
    consolidateMatches l = specConsolidate l ∧
      ∀ m ∈ consolidateMatches l, m ∈ l := by
  have hmain : consolidateMatches l = specConsolidate l := by
    unfold consolidateMatches specConsolidate
    rw [consolidateAssoc_eq_spec, List.map_filterMap]
    apply List.filterMap_congr
    intro n hn
    rw [Option.map_map]
    cases hg : specGroup l n with
    | none => rfl
    | some v => rfl
  refine ⟨hmain, ?_⟩
  intro m hm
  rw [hmain] at hm
  unfold specConsolidate at hm
  rcases List.mem_filterMap.mp hm with ⟨n, hn, hgn⟩
  unfold specGroup at hgn
  cases hf : l.filter (fun m => m.playlist_channel.name == n) with
  | nil => rw [hf] at hgn; cases hgn
  | cons x t =>
    rw [hf] at hgn
    simp only [Option.some.injEq] at hgn
    have hmem : m ∈ x :: t := by
      rw [← hgn]
      exact foldl_specPick_mem t x
    have : m ∈ l.filter (fun m => m.playlist_channel.name == n) := by rw [hf]; exact hmem
    exact (List.mem_filter.mp this).1

/-- Witness for C2 instantiating the membership clause: the survivor of two
matched entries for the same name is the higher-scoring one, an element of
the input carrying its own source tag. -/
theorem claimC2_witness :
    consolidateMatches [entryA82, entryA95] = specConsolidate [entryA82, entryA95] ∧
      entryA95 ∈ [entryA82, entryA95] :=
  ⟨(claimC2_theorem [entryA82, entryA95]).1,
   (claimC2_theorem [entryA82, entryA95]).2 entryA95 (by decide)⟩

end HomeEpg
namespace HomeEpg

/-- Lookup after an in-place overwrite: the overwritten key reads the new
value when it was present; other keys are untouched. -/
theorem alistLookup_overwrite {α : Type} (acc : List (PyStr × α)) (k' : PyStr) (v : α)
    (k : PyStr) :
    alistLookup (alistOverwrite acc k' v) k =
      if k = k' then (alistLookup acc k).map (fun _ => v) else alistLookup acc k := by
  induction acc with
  | nil =>
    by_cases hk : k = k' <;> simp [alistOverwrite, alistLookup, hk]
  | cons p acc ih =>
    unfold alistOverwrite at ih ⊢
    rw [List.map_cons]
    by_cases hp' : (p.1 == k') = true
    · have hp1 : p.1 = k' := eq_of_beq hp'
      rw [if_pos hp', alistLookup_cons, alistLookup_cons]
      dsimp only
      by_cases hp : (p.1 == k) = true
      · have hkk' : k = k' := by rw [← eq_of_beq hp, hp1]
        rw [if_pos hp, if_pos hkk', if_pos hp]
        rfl
      · have hkk' : ¬ k = k' := fun h => hp (beq_iff_eq.mpr (by rw [hp1, h]))
        rw [if_neg hp, if_neg hkk', if_neg hp, ih, if_neg hkk']
    · rw [if_neg hp', alistLookup_cons, alistLookup_cons]
      by_cases hp : (p.1 == k) = true
      · have hkk' : ¬ k = k' := fun h => hp' (beq_iff_eq.mpr (by rw [eq_of_beq hp, h]))
        rw [if_pos hp, if_neg hkk', if_pos hp]
      · rw [if_neg hp, if_neg hp, ih]

/-- Lookup after appending a fresh pair at the end. -/
theorem alistLookup_append_singleton {α : Type} (acc : List (PyStr × α)) (k' : PyStr)
    (v : α) (k : PyStr) :
    alistLookup (acc ++ [(k', v)]) k =
      match alistLookup acc k with
      | some w => some w
      | none => if (k' == k) = true then some v else none := by
  induction acc with
  | nil =>
    rw [List.nil_append, alistLookup_cons]
    dsimp only
    have h0 : alistLookup ([] : List (PyStr × α)) k = none := rfl
    rw [h0]
  | cons p acc ih =>
    rw [List.cons_append, alistLookup_cons, alistLookup_cons]
    by_cases h : (p.1 == k) = true
    · rw [if_pos h, if_pos h]
    · rw [if_neg h, if_neg h, ih]

/-- Lookup after a Python-dict assignment. -/
theorem alistLookup_insert {α : Type} (acc : List (PyStr × α)) (k' : PyStr) (v : α)
    (k : PyStr) :
    alistLookup (alistInsert acc k' v) k =
      if k = k' then some v else alistLookup acc k := by
  unfold alistInsert
  cases hlk : alistLookup acc k' with
  | none =>
    rw [alistLookup_append_singleton]
    by_cases hk : k = k'
    · subst hk
      rw [hlk, if_pos rfl]
      dsimp only
      rw [if_pos (beq_iff_eq.mpr rfl)]
    · rw [if_neg hk]
      cases hl : alistLookup acc k with
      | none =>
        dsimp only
        have hne : (k' == k) = false := by
          have : ¬ k' = k := fun h => hk h.symm
          simpa using this
        rw [hne]
        rfl
      | some w => rfl
  | some w =>
    rw [alistLookup_overwrite]
    by_cases hk : k = k'
    · subst hk
      rw [if_pos rfl, if_pos rfl, hlk]
      rfl
    · rw [if_neg hk, if_neg hk]

/-- A looked-up value is among the stored values. -/
theorem alistLookup_mem_values {α : Type} (acc : List (PyStr × α)) (k : PyStr) (v : α)
    (h : alistLookup acc k = some v) : v ∈ acc.map Prod.snd := by
  induction acc with
  | nil => cases h
  | cons p acc ih =>
    rw [alistLookup_cons] at h
    by_cases hpk : (p.1 == k) = true
    · rw [if_pos hpk] at h
      simp only [Option.some.injEq] at h
      subst h
      rw [List.map_cons]
      exact List.mem_cons_self _ _
    · rw [if_neg hpk] at h
      exact List.mem_cons_of_mem _ (ih h)

/-- Folding dict assignments over a pair list: the lookup of a key is the
last value assigned to it. -/
theorem alistLookup_foldl_insert (ps : List (PyStr × MapData)) (k : PyStr) :
    alistLookup (ps.foldl (fun acc p => alistInsert acc p.1 p.2) []) k =
      ((ps.filter (fun p => p.1 == k)).getLast?).map Prod.snd := by
  induction ps using List.reverseRecOn with
  | nil => rfl
  | append_singleton ps p ih =>
    rw [List.foldl_append, List.foldl_cons, List.foldl_nil, alistLookup_insert,
      List.filter_append]
    by_cases hk : k = p.1
    · rw [if_pos hk]
      rw [show List.filter (fun p => p.1 == k) [p] = [p] by simp [hk]]
      rw [List.getLast?_concat]
      rfl
    · rw [if_neg hk]
      rw [show List.filter (fun p => p.1 == k) [p] = [] by
        have hpk : ¬ p.1 = k := fun h => hk h.symm
        simp [hpk]]
      rw [List.append_nil, ih]

/-- The nested per-file, per-channel fold of `load_channel_mappings` equals
one fold of dict assignments over the flattened valid entries. -/
theorem loadChannelMappings_eq_foldl (files : List CatFile) :
    loadChannelMappings files =
      (catEntryList files).foldl (fun acc p => alistInsert acc p.1 p.2) [] := by
  have inner : ∀ (chs : List RawCatChannel) (site : PyStr)
      (acc : List (PyStr × MapData)),
      chs.foldl
        (fun acc2 ch =>
          if ch.site_id.isEmpty || (catChannelName ch).isEmpty then acc2
          else
            alistInsert acc2 (normalizeChannelName (catChannelName ch))
              (MapData.mk site ch.site_id ch.xmltv_id ch.lang (catChannelName ch)))
        acc =
      (chs.filterMap (fun ch =>
          if ch.site_id.isEmpty || (catChannelName ch).isEmpty then none
          else
            some (normalizeChannelName (catChannelName ch),
              MapData.mk site ch.site_id ch.xmltv_id ch.lang (catChannelName ch)))).foldl
        (fun acc p => alistInsert acc p.1 p.2) acc := by
    intro chs site
    induction chs with
    | nil => intro acc; rfl
    | cons ch chs ih =>
      intro acc
      rw [List.foldl_cons, List.filterMap_cons]
      by_cases hv : (ch.site_id.isEmpty || (catChannelName ch).isEmpty) = true
      · rw [if_pos hv, if_pos hv, ih]
      · rw [if_neg hv, if_neg hv, List.foldl_cons, ih]
  have outer : ∀ (fs : List CatFile) (acc : List (PyStr × MapData)),
      fs.foldl
        (fun acc f =>
          f.channels.foldl
            (fun acc2 ch =>
              if ch.site_id.isEmpty || (catChannelName ch).isEmpty then acc2
              else
                alistInsert acc2 (normalizeChannelName (catChannelName ch))
                  (MapData.mk f.site ch.site_id ch.xmltv_id ch.lang (catChannelName ch)))
            acc)
        acc =
      (fs.flatMap (fun f =>
          f.channels.filterMap (fun ch =>
            if ch.site_id.isEmpty || (catChannelName ch).isEmpty then none
            else
              some (normalizeChannelName (catChannelName ch),
                MapData.mk f.site ch.site_id ch.xmltv_id ch.lang (catChannelName ch))))).foldl
        (fun acc p => alistInsert acc p.1 p.2) acc := by
    intro fs
    induction fs with
    | nil => intro acc; rfl
    | cons f fs ih =>
      intro acc
      rw [List.foldl_cons, List.flatMap_cons, List.foldl_append, inner, ih]
  exact outer files []

end HomeEpg

namespace HomeEpg

/-- A scan step only stores values looked up in the index. -/
theorem scanStep_mem (cm : List (PyStr × MapData)) (nn : PyStr)
    (st : Frac × Option MapData) (nm : PyStr)
    (hst : ∀ d, st.2 = some d → d ∈ cm.map Prod.snd) :
    ∀ d, (scanStep cm nn st nm).2 = some d → d ∈ cm.map Prod.snd := by
  intro d hd
  unfold scanStep at hd
  by_cases hc : (fracLt st.1 (calcSimilarity nn nm) &&
      fracLt (Frac.mk 4 5) (calcSimilarity nn nm)) = true
  · rw [if_pos hc] at hd
    exact alistLookup_mem_values cm nm d hd
  · rw [if_neg hc] at hd
    exact hst d hd

/-- The scan's surviving mapping, when any, is a value of the index. -/
theorem scanBest_mem (cm : List (PyStr × MapData)) (nn : PyStr) :
    ∀ d, (scanBest cm nn).2 = some d → d ∈ cm.map Prod.snd := by
  unfold scanBest
  generalize scanCandidates cm nn = names
  have h0 : ∀ d, ((Frac.mk 0 1, (none : Option MapData))).2 = some d →
      d ∈ cm.map Prod.snd := by
    intro d hd
    cases hd
  generalize hst0 : ((Frac.mk 0 1, (none : Option MapData)) : Frac × Option MapData) = st
    at h0 ⊢
  clear hst0
  induction names generalizing st with
  | nil => exact h0
  | cons nm names ih =>
    rw [List.foldl_cons]
    exact ih _ (scanStep_mem cm nn st nm h0)

/-- Reduction of `process_channel` on a direct hit. -/
theorem processChannel_of_direct (cm : List (PyStr × MapData)) (c : PChannel) (d0 : MapData)
    (hlk : alistLookup cm (normalizeChannelName c.clean_name) = some d0) :
    processChannel cm c = CatMatch.mk c (some d0) .Direct none := by
  simp only [processChannel, hlk]

/-- Reduction of `process_channel` to the scan when the direct lookup
fails. -/
theorem processChannel_of_scan (cm : List (PyStr × MapData)) (c : PChannel)
    (hlk : alistLookup cm (normalizeChannelName c.clean_name) = none) :
    processChannel cm c =
      match (scanBest cm (normalizeChannelName c.clean_name)).2 with
      | some d => CatMatch.mk c (some d) .PartialScan
          (some (scanBest cm (normalizeChannelName c.clean_name)).1)
      | none => CatMatch.mk c none .NoMatch none := by
  simp only [processChannel, hlk]

/-- Whatever mapping `process_channel` returns is a value of the normalized
index. -/
theorem processChannel_mapping_mem (cm : List (PyStr × MapData)) (c : PChannel)
    (d : MapData) (h : (processChannel cm c).mapping = some d) :
    d ∈ cm.map Prod.snd := by
  cases hlk : alistLookup cm (normalizeChannelName c.clean_name) with
  | some d0 =>
    rw [processChannel_of_direct cm c d0 hlk] at h
    simp only [Option.some.injEq] at h
    subst h
    exact alistLookup_mem_values _ _ _ hlk
  | none =>
    rw [processChannel_of_scan cm c hlk] at h
    cases hb : (scanBest cm (normalizeChannelName c.clean_name)).2 with
    | some d1 =>
      rw [hb] at h
      simp only [Option.some.injEq] at h
      subst h
      exact scanBest_mem cm _ d1 hb
    | none =>
      rw [hb] at h
      cases h

/-- C8 amended: the later-loaded colliding entry overwrites the single
normalized index, which is the only structure `load_channel_mappings`
returns — the lookup of each key is the last entry loaded for it — and the
similarity scan iterates that same index, so every mapping the catalog
matcher returns is a value of the index; the earlier colliding entry is
discoverable by neither path. -/
theorem claimC8_amended :
    (∀ (files : List CatFile) (k : PyStr),
        alistLookup (loadChannelMappings files) k = lastDataFor files k) ∧
    (∀ (pcs : List PChannel) (cm : List (PyStr × MapData)) (c : CatMatch),
        c ∈ matchChannelsCatalog pcs cm → ∀ d, c.mapping = some d →
          d ∈ cm.map Prod.snd) := by
  constructor
  · intro files k
    rw [loadChannelMappings_eq_foldl, alistLookup_foldl_insert]
    rfl
  · intro pcs cm c hc d hd
    rcases List.mem_map.mp hc with ⟨pc, _, hpc⟩
    subst hpc
    exact processChannel_mapping_mem cm pc d hd

/-- C8 counterexample: the colliding entries `FOO` and `Foo TV` both
normalize to `FOO`; the returned index holds only the later entry's data,
so the earlier entry (site_id `1`) is not discoverable by the exact lookup
nor by the scan over the index's keys — refuting the claim that both remain
discoverable. -/
theorem claimC8_counterexample :
    loadChannelMappings catCollide = [(normalizeChannelName "FOO".toList, dataFooTV)] ∧
    processChannel (loadChannelMappings catCollide)
        (PChannel.mk "Foo TV".toList "Foo TV".toList [] [] []) =
      CatMatch.mk (PChannel.mk "Foo TV".toList "Foo TV".toList [] [] [])
        (some dataFooTV) .Direct none ∧
    ¬ MapData.mk "s".toList "1".toList "x1".toList "en".toList "FOO".toList
        ∈ (loadChannelMappings catCollide).map Prod.snd := by
  refine ⟨by decide, by decide, by decide⟩

/-- Witness for C8 amended at the colliding catalog. -/
theorem claimC8_witness :
    alistLookup (loadChannelMappings catCollide) (normalizeChannelName "FOO".toList)
      = lastDataFor catCollide (normalizeChannelName "FOO".toList) ∧
    dataFooTV ∈ (loadChannelMappings catCollide).map Prod.snd :=
  ⟨claimC8_amended.1 catCollide (normalizeChannelName "FOO".toList),
   claimC8_amended.2 [PChannel.mk "Foo TV".toList "Foo TV".toList [] [] []]
     (loadChannelMappings catCollide)
     (CatMatch.mk (PChannel.mk "Foo TV".toList "Foo TV".toList [] [] [])
       (some dataFooTV) .Direct none)
     (by decide) dataFooTV (by decide)⟩

end HomeEpg

namespace HomeEpg

/-!
### Lemmas for claim C5: conditional idempotence of the two normalizers

The stage-identity lemmas below show that every pass of `clean_channel_name`
and `normalize_channel_name` leaves a fully-reduced name unchanged, so a
second application of either normalizer is the identity on such names.
-/

theorem isWordChar_not_space (c : Char) (h : isWordChar c = true) : isPySpace c = false := by
  cases hs : isPySpace c
  · rfl
  · exfalso
    have h6 : c = ' ' ∨ c = '\t' ∨ c = '\n' ∨ c = '\r' ∨ c = '\x0b' ∨ c = '\x0c' := by
      simp only [isPySpace, Bool.or_eq_true, beq_iff_eq, or_assoc] at hs
      exact hs
    rcases h6 with h1 | h1 | h1 | h1 | h1 | h1 <;> subst h1 <;> exact absurd h (by decide)

theorem canonWordChar_word (c : Char) (h : canonWordChar c = true) : isWordChar c = true := by
  unfold canonWordChar at h
  rw [Bool.and_eq_true] at h
  exact h.1

theorem canonWordChar_upper (c : Char) (h : canonWordChar c = true) : c.toUpper = c := by
  unfold canonWordChar at h
  rw [Bool.and_eq_true] at h
  exact eq_of_beq h.2

theorem mapToUpper_of_canon (w : PyStr) (h : ∀ c ∈ w, canonWordChar c = true) :
    w.map Char.toUpper = w := by
  have h2 : ∀ c ∈ w, Char.toUpper c = id c := fun c hc => canonWordChar_upper c (h c hc)
  rw [List.map_congr_left h2, List.map_id]

/-- Characterization of a successful token match: the consumed characters
upper-case to the token and the remainder is the drop. -/
theorem matchTok_eq_some (t : PyStr) : ∀ cs r : PyStr, matchTok t cs = some r →
    (cs.take t.length).map Char.toUpper = t ∧ r = cs.drop t.length ∧ t.length ≤ cs.length := by
  induction t with
  | nil =>
    intro cs r h
    simp only [matchTok, Option.some.injEq] at h
    subst h
    simp
  | cons tc ts ih =>
    intro cs r h
    cases cs with
    | nil => exact absurd h (by simp [matchTok])
    | cons c cs2 =>
      simp only [matchTok] at h
      by_cases hc : (c.toUpper == tc) = true
      · rw [if_pos hc] at h
        obtain ⟨h1, h2, h3⟩ := ih cs2 r h
        refine ⟨?_, ?_, ?_⟩
        · simp only [List.length_cons, List.take_succ_cons, List.map_cons, h1, eq_of_beq hc]
        · simpa using h2
        · simpa using Nat.succ_le_succ h3
      · rw [if_neg hc] at h
        exact absurd h (by simp)

theorem matchTokRev_eq_matchTok (t : PyStr) : ∀ cs, matchTokRev t cs = matchTok t cs := by
  induction t with
  | nil => intro cs; rfl
  | cons tc ts ih =>
    intro cs
    cases cs with
    | nil => rfl
    | cons c cs2 => simp only [matchTokRev, matchTok, ih]

/-- A space-free token matched at the start of a canonical word either fails,
or succeeds with a word character right after the consumed part (so neither a
`\b` nor a whitespace requirement can be satisfied there). -/
theorem matchTok_at_word (t w tail : PyStr)
    (ht0 : t ≠ []) (htsp : ∀ c ∈ t, isPySpace c = false)
    (hw0 : w ≠ []) (hwc : ∀ c ∈ w, canonWordChar c = true)
    (hne : w ≠ t)
    (htail : tail = [] ∨ ∃ r, tail = ' ' :: r) :
    matchTok t (w ++ tail) = none ∨
      ∃ c r, matchTok t (w ++ tail) = some (c :: r) ∧ isWordChar c = true := by
  cases hm : matchTok t (w ++ tail) with
  | none => exact Or.inl rfl
  | some rr =>
    obtain ⟨h1, h2, h3⟩ := matchTok_eq_some t (w ++ tail) rr hm
    rcases Nat.lt_trichotomy t.length w.length with hlt | heq | hgt
    · right
      have hd : (w ++ tail).drop t.length = w.drop t.length ++ tail := by
        rw [List.drop_append_eq_append_drop, Nat.sub_eq_zero_of_le (le_of_lt hlt), List.drop_zero]
      have hne2 : w.drop t.length ≠ [] := by
        intro hnil
        rw [List.drop_eq_nil_iff] at hnil
        exact absurd hlt (Nat.not_lt.mpr hnil)
      obtain ⟨c, r2, hcr⟩ := List.exists_cons_of_ne_nil hne2
      refine ⟨c, r2 ++ tail, ?_, ?_⟩
      · rw [h2, hd, hcr, List.cons_append]
      · have hcm : c ∈ w := List.drop_subset t.length w (by rw [hcr]; exact List.mem_cons_self c r2)
        exact canonWordChar_word c (hwc c hcm)
    · exfalso
      have htk : (w ++ tail).take t.length = w := by
        rw [heq, List.take_append_eq_append_take, List.take_length, Nat.sub_self, List.take_zero,
          List.append_nil]
      rw [htk, mapToUpper_of_canon w hwc] at h1
      exact hne h1
    · exfalso
      rcases htail with h0 | ⟨rt, hrt⟩
      · subst h0
        rw [List.append_nil] at h3
        exact absurd h3 (Nat.not_le.mpr hgt)
      · subst hrt
        obtain ⟨k, hk⟩ : ∃ k, t.length - w.length = k + 1 := by
          refine ⟨t.length - w.length - 1, ?_⟩
          omega
        have htk : (w ++ ' ' :: rt).take t.length = w ++ ' ' :: rt.take k := by
          rw [List.take_append_eq_append_take, List.take_of_length_le (le_of_lt hgt), hk,
            List.take_succ_cons]
        have hup : Char.toUpper ' ' = ' ' := by decide
        have hsp : ' ' ∈ t := by
          rw [← h1, htk, List.map_append, List.map_cons, hup]
          exact List.mem_append_right _ (List.mem_cons_self _ _)
        exact absurd (htsp ' ' hsp) (by decide)

/-- If every alternative either fails or leaves a word character right after
the match, the whole `\b`-checked alternation fails. -/
theorem tryQualToks_eq_none (toks : List PyStr) (cs : PyStr)
    (h : ∀ t ∈ toks, matchTok t cs = none ∨
      ∃ c r, matchTok t cs = some (c :: r) ∧ isWordChar c = true) :
    tryQualToks toks cs = none := by
  induction toks with
  | nil => rfl
  | cons t ts ih =>
    have hrest := ih (fun u hu => h u (List.mem_cons_of_mem t hu))
    rcases h t (List.mem_cons_self t ts) with hn | ⟨c, r, hs, hw⟩
    · simp only [tryQualToks, hn]
      exact hrest
    · simp only [tryQualToks, hs]
      have hb : boundaryAfter (c :: r) = false := by
        simp only [boundaryAfter, hw, Bool.not_true]
      rw [hb, if_neg Bool.false_ne_true]
      exact hrest

/-- Likewise, the reversed-tail alternation fails when each alternative either
fails or is followed (in the reversed string) by a word character. -/
theorem tryRevToks_eq_none (toks : List PyStr) (r : PyStr)
    (h : ∀ t ∈ toks, matchTokRev t.reverse r = none ∨
      ∃ c r2, matchTokRev t.reverse r = some (c :: r2) ∧ isWordChar c = true) :
    tryRevToks toks r = none := by
  induction toks with
  | nil => rfl
  | cons t ts ih =>
    have hrest := ih (fun u hu => h u (List.mem_cons_of_mem t hu))
    rcases h t (List.mem_cons_self t ts) with hn | ⟨c, r2, hs, hw⟩
    · simp only [tryRevToks, hn]
      exact hrest
    · simp only [tryRevToks, hs]
      rw [isWordChar_not_space c hw, if_neg Bool.false_ne_true]
      exact hrest

theorem ne_of_contains_eq_false (l : List PyStr) (w t : PyStr)
    (h : l.contains w = false) (ht : t ∈ l) : w ≠ t := by
  intro he
  have h2 : l.contains w = true := List.elem_eq_true_of_mem (by rw [he]; exact ht)
  rw [h2] at h
  exact absurd h (by decide)

/-- The quality alternation cannot fire at the start of a fully-reduced word
that is not itself a quality token. -/
theorem tryQualToks_at_word (w tail : PyStr)
    (hw0 : w ≠ []) (hwc : ∀ c ∈ w, canonWordChar c = true)
    (hq : qualWordList.contains w = false)
    (htail : tail = [] ∨ ∃ r, tail = ' ' :: r) :
    tryQualToks qualToks (w ++ tail) = none := by
  apply tryQualToks_eq_none
  intro t ht
  simp only [qualToks, List.mem_cons, List.not_mem_nil, or_false] at ht
  rcases ht with h | h | h | h | h | h | h | h <;> subst h <;>
    first
      | exact matchTok_at_word _ w tail (by decide) (by decide) hw0 hwc
          (ne_of_contains_eq_false _ _ _ hq (by decide)) htail
      | exact matchTok_at_word _ w tail (by decide) (by decide) hw0 hwc
          (fun he => absurd (hwc '.' (by rw [he]; decide)) (by decide)) htail

/-- The `\b`-scanner is the identity wherever it can never fire. -/
theorem remQualBGo_of_safe : ∀ (fuel : Nat) (prev : Bool) (cs : PyStr),
    qualSafe prev cs = true → remQualBGo fuel prev cs = cs := by
  intro fuel
  induction fuel with
  | zero => intro prev cs _; rfl
  | succ fuel ih =>
    intro prev cs h
    cases cs with
    | nil => rfl
    | cons c rest =>
      simp only [qualSafe, Bool.and_eq_true, Bool.or_eq_true] at h
      obtain ⟨h1, h2⟩ := h
      cases prev with
      | true =>
        show c :: remQualBGo fuel (isWordChar c) rest = c :: rest
        rw [ih (isWordChar c) rest h2]
      | false =>
        have hn : tryQualToks qualToks (c :: rest) = none := by
          rcases h1 with h1 | h1
          · exact absurd h1 (by decide)
          · exact Option.isNone_iff_eq_none.mp h1
        show (match tryQualToks qualToks (c :: rest) with
          | some rest2 => remQualBGo fuel true rest2
          | none => c :: remQualBGo fuel (isWordChar c) rest) = c :: rest
        rw [hn]
        show c :: remQualBGo fuel (isWordChar c) rest = c :: rest
        rw [ih (isWordChar c) rest h2]

/-- Traversing one canonical word preserves `\b`-scanner safety. -/
theorem qualSafe_word : ∀ (w : PyStr) (prev : Bool) (rest : PyStr),
    w ≠ [] → (∀ c ∈ w, canonWordChar c = true) →
    (prev = false → tryQualToks qualToks (w ++ rest) = none) →
    qualSafe true rest = true → qualSafe prev (w ++ rest) = true := by
  intro w
  induction w with
  | nil => intro prev rest h0 _ _ _; exact absurd rfl h0
  | cons c w2 ih =>
    intro prev rest _ hwc hno hrest
    have hcw : isWordChar c = true := canonWordChar_word c (hwc c (List.mem_cons_self c w2))
    show qualSafe prev (c :: (w2 ++ rest)) = true
    simp only [qualSafe, Bool.and_eq_true, Bool.or_eq_true]
    constructor
    · cases prev with
      | true => exact Or.inl (by trivial)
      | false =>
        right
        rw [Option.isNone_iff_eq_none]
        exact hno rfl
    · rw [hcw]
      cases w2 with
      | nil => simpa using hrest
      | cons d w3 =>
        exact ih true rest (List.cons_ne_nil d w3)
          (fun e he => hwc e (List.mem_cons_of_mem c he))
          (fun hx => absurd hx (by decide)) hrest

/-- A space-joined list of fully-reduced non-quality words is safe for the
`\b`-scanner, both from a word start and from just before a separator. -/
theorem qualSafe_joinWords : ∀ ws : List PyStr,
    (∀ w ∈ ws, (w ≠ [] ∧ ∀ c ∈ w, canonWordChar c = true) ∧
      qualWordList.contains w = false) →
    qualSafe false (joinWords ws) = true ∧ qualSafe true (' ' :: joinWords ws) = true := by
  intro ws
  induction ws with
  | nil => intro _; exact ⟨rfl, by decide⟩
  | cons w ws2 ih =>
    intro h
    obtain ⟨⟨hw0, hwc⟩, hq⟩ := h w (List.mem_cons_self w ws2)
    have ih2 := ih (fun u hu => h u (List.mem_cons_of_mem w hu))
    have main : qualSafe false (joinWords (w :: ws2)) = true := by
      cases ws2 with
      | nil =>
        have hj : joinWords [w] = w ++ [] := by simp [joinWords]
        rw [hj]
        exact qualSafe_word w false [] hw0 hwc
          (fun _ => tryQualToks_at_word w [] hw0 hwc hq (Or.inl rfl)) rfl
      | cons w2 ws3 =>
        have hj : joinWords (w :: w2 :: ws3) = w ++ (' ' :: joinWords (w2 :: ws3)) := by
          simp [joinWords]
        rw [hj]
        exact qualSafe_word w false (' ' :: joinWords (w2 :: ws3)) hw0 hwc
          (fun _ => tryQualToks_at_word w _ hw0 hwc hq (Or.inr ⟨joinWords (w2 :: ws3), rfl⟩))
          ih2.2
    refine ⟨main, ?_⟩
    show qualSafe true (' ' :: joinWords (w :: ws2)) = true
    simp only [qualSafe, Bool.and_eq_true, Bool.or_eq_true]
    refine ⟨Or.inl (by trivial), ?_⟩
    rw [(by decide : isWordChar ' ' = false)]
    exact main

/-- The `\s+`-scanner is the identity wherever it can never fire. -/
theorem remWsQualGo_of_safe : ∀ (fuel : Nat) (cs : PyStr),
    wsQualSafe cs = true → remWsQualGo fuel cs = cs := by
  intro fuel
  induction fuel with
  | zero => intro cs _; rfl
  | succ fuel ih =>
    intro cs h
    cases cs with
    | nil => rfl
    | cons c rest =>
      simp only [wsQualSafe, Bool.and_eq_true, Bool.or_eq_true] at h
      obtain ⟨h1, h2⟩ := h
      cases hsp : isPySpace c with
      | false =>
        simp only [remWsQualGo]
        rw [hsp, if_neg Bool.false_ne_true]
        show c :: remWsQualGo fuel rest = c :: rest
        rw [ih rest h2]
      | true =>
        have hn : tryWsQualTok (c :: rest) = none := by
          rcases h1 with h1 | h1
          · rw [hsp] at h1
            exact absurd h1 (by decide)
          · exact Option.isNone_iff_eq_none.mp h1
        simp only [remWsQualGo]
        rw [hsp, if_pos rfl, hn]
        show c :: remWsQualGo fuel rest = c :: rest
        rw [ih rest h2]

theorem joinWords_cons_of_ne (w : PyStr) (ws : List PyStr) (h : ws ≠ []) :
    joinWords (w :: ws) = w ++ ' ' :: joinWords ws := by
  cases ws with
  | nil => exact absurd rfl h
  | cons w2 ws2 => simp [joinWords]

/-- Any space-joined word list decomposes as its head word followed by the
empty tail or a space-led tail. -/
theorem joinWords_cons_decomp (w : PyStr) (ws : List PyStr) :
    ∃ X, joinWords (w :: ws) = w ++ X ∧ (X = [] ∨ ∃ r, X = ' ' :: r) := by
  cases ws with
  | nil => exact ⟨[], by simp [joinWords], Or.inl rfl⟩
  | cons w2 ws2 =>
    exact ⟨' ' :: joinWords (w2 :: ws2), by simp [joinWords], Or.inr ⟨_, rfl⟩⟩

/-- Word characters never start the `\s+` of the `\s+TOKEN\b` pattern, so
safety propagates through a word. -/
theorem wsQualSafe_append_word : ∀ (w rest : PyStr),
    (∀ c ∈ w, canonWordChar c = true) → wsQualSafe rest = true →
    wsQualSafe (w ++ rest) = true := by
  intro w
  induction w with
  | nil => intro rest _ h; simpa using h
  | cons c w2 ih =>
    intro rest hwc hrest
    show wsQualSafe (c :: (w2 ++ rest)) = true
    simp only [wsQualSafe, Bool.and_eq_true, Bool.or_eq_true]
    refine ⟨Or.inl ?_, ih rest (fun e he => hwc e (List.mem_cons_of_mem c he)) hrest⟩
    rw [isWordChar_not_space c (canonWordChar_word c (hwc c (List.mem_cons_self c w2)))]
    rfl

/-- A space-joined list of fully-reduced non-quality words is safe for the
`\s+`-scanner of `normalize_channel_name`. -/
theorem wsQualSafe_joinWords : ∀ ws : List PyStr,
    (∀ w ∈ ws, (w ≠ [] ∧ ∀ c ∈ w, canonWordChar c = true) ∧
      qualWordList.contains w = false) →
    wsQualSafe (joinWords ws) = true := by
  intro ws
  induction ws with
  | nil => intro _; rfl
  | cons w ws2 ih =>
    intro h
    obtain ⟨⟨hw0, hwc⟩, _⟩ := h w (List.mem_cons_self w ws2)
    have ih2 := ih (fun u hu => h u (List.mem_cons_of_mem w hu))
    cases ws2 with
    | nil =>
      have hj : joinWords [w] = w ++ [] := by simp [joinWords]
      rw [hj]
      exact wsQualSafe_append_word w [] hwc rfl
    | cons w2 ws3 =>
      have hj : joinWords (w :: w2 :: ws3) = w ++ (' ' :: joinWords (w2 :: ws3)) := by
        simp [joinWords]
      rw [hj]
      apply wsQualSafe_append_word w _ hwc
      obtain ⟨⟨hw20, hw2c⟩, hq2⟩ := h w2 (List.mem_cons_of_mem w (List.mem_cons_self w2 ws3))
      simp only [wsQualSafe, Bool.and_eq_true, Bool.or_eq_true]
      refine ⟨Or.inr ?_, ih2⟩
      rw [Option.isNone_iff_eq_none]
      unfold tryWsQualTok
      obtain ⟨X, hX, hXs⟩ := joinWords_cons_decomp w2 ws3
      obtain ⟨c2, w2t, hc2⟩ := List.exists_cons_of_ne_nil hw20
      have hs2 : isPySpace c2 = false := isWordChar_not_space c2 (canonWordChar_word c2
        (hw2c c2 (by rw [hc2]; exact List.mem_cons_self c2 w2t)))
      have hdw : (' ' :: joinWords (w2 :: ws3)).dropWhile isPySpace = joinWords (w2 :: ws3) := by
        rw [List.dropWhile_cons, if_pos (by decide : isPySpace ' ' = true), hX, hc2,
          List.cons_append, List.dropWhile_cons, hs2, if_neg Bool.false_ne_true]
      rw [hdw, hX]
      exact tryQualToks_at_word w2 X hw20 hw2c hq2 hXs

theorem joinWords_append_singleton (ws : List PyStr) (w : PyStr) (h : ws ≠ []) :
    joinWords (ws ++ [w]) = joinWords ws ++ ' ' :: w := by
  induction ws with
  | nil => exact absurd rfl h
  | cons w1 ws2 ih =>
    cases ws2 with
    | nil => simp [joinWords]
    | cons w2 ws3 =>
      have h1 : (w1 :: w2 :: ws3) ++ [w] = w1 :: ((w2 :: ws3) ++ [w]) := rfl
      rw [h1, joinWords_cons_of_ne _ _ (by simp), ih (List.cons_ne_nil w2 ws3),
        joinWords_cons_of_ne _ _ (List.cons_ne_nil w2 ws3)]
      simp

/-- The reverse of a space-joined word list is the space-join of the reversed
words in reverse order. -/
theorem joinWords_reverse : ∀ ws : List PyStr,
    (joinWords ws).reverse = joinWords (ws.reverse.map List.reverse) := by
  intro ws
  induction ws with
  | nil => rfl
  | cons w ws2 ih =>
    cases ws2 with
    | nil => simp [joinWords]
    | cons w2 ws3 =>
      rw [joinWords_cons_of_ne w (w2 :: ws3) (List.cons_ne_nil w2 ws3), List.reverse_append,
        List.reverse_cons, ih]
      have hr : (w :: w2 :: ws3).reverse.map List.reverse
          = ((w2 :: ws3).reverse.map List.reverse) ++ [w.reverse] := by
        rw [List.reverse_cons, List.map_append]
        rfl
      have hne : ((w2 :: ws3).reverse.map List.reverse) ≠ [] := by
        simp
      rw [hr, joinWords_append_singleton _ _ hne]
      simp

theorem mem_joinWords : ∀ (ws : List PyStr) (c : Char), c ∈ joinWords ws →
    c = ' ' ∨ ∃ w ∈ ws, c ∈ w := by
  intro ws
  induction ws with
  | nil => intro c hc; exact absurd hc (List.not_mem_nil c)
  | cons w ws2 ih =>
    intro c hc
    cases ws2 with
    | nil =>
      right
      exact ⟨w, List.mem_cons_self w [], by simpa [joinWords] using hc⟩
    | cons w2 ws3 =>
      rw [joinWords_cons_of_ne w (w2 :: ws3) (List.cons_ne_nil w2 ws3)] at hc
      rcases List.mem_append.mp hc with h | h
      · exact Or.inr ⟨w, List.mem_cons_self w _, h⟩
      · rcases List.mem_cons.mp h with h | h
        · exact Or.inl h
        · rcases ih c h with h2 | ⟨u, hu, hcu⟩
          · exact Or.inl h2
          · exact Or.inr ⟨u, List.mem_cons_of_mem w hu, hcu⟩

theorem dropWhile_joinWords (ws : List PyStr)
    (h : ∀ w ∈ ws, w ≠ [] ∧ ∀ c ∈ w, canonWordChar c = true) :
    (joinWords ws).dropWhile isPySpace = joinWords ws := by
  cases ws with
  | nil => rfl
  | cons w ws2 =>
    obtain ⟨hw0, hwc⟩ := h w (List.mem_cons_self w ws2)
    obtain ⟨c, wt, hc⟩ := List.exists_cons_of_ne_nil hw0
    obtain ⟨X, hX, _⟩ := joinWords_cons_decomp w ws2
    have hs : isPySpace c = false := isWordChar_not_space c (canonWordChar_word c
      (hwc c (by rw [hc]; exact List.mem_cons_self c wt)))
    rw [hX, hc, List.cons_append, List.dropWhile_cons, hs, if_neg Bool.false_ne_true]

theorem pyStrip_joinWords (ws : List PyStr)
    (h : ∀ w ∈ ws, w ≠ [] ∧ ∀ c ∈ w, canonWordChar c = true) :
    pyStrip (joinWords ws) = joinWords ws := by
  have hcond : ∀ u ∈ ws.reverse.map List.reverse,
      u ≠ [] ∧ ∀ c ∈ u, canonWordChar c = true := by
    intro u hu
    obtain ⟨v, hv, hvu⟩ := List.mem_map.mp hu
    obtain ⟨hv0, hvc⟩ := h v (List.mem_reverse.mp hv)
    subst hvu
    constructor
    · simpa using hv0
    · intro c hc
      exact hvc c (List.mem_reverse.mp hc)
  unfold pyStrip
  rw [dropWhile_joinWords ws h, joinWords_reverse ws, dropWhile_joinWords _ hcond,
    ← joinWords_reverse ws, List.reverse_reverse]

/-- Character-level facts about the alphabet of a fully-reduced name:
every character is kept by the punctuation pass, is not `&` or `+`, is
upper-case-fixed, and cannot begin a region-mark colon. -/
theorem canonOrSpace_facts (c : Char) (h : c = ' ' ∨ canonWordChar c = true) :
    (isWordChar c || isPySpace c) = true ∧ ((c == '&') || (c == '+')) = false ∧
      c.toUpper = c ∧ (c.toUpper == ':') = false := by
  rcases h with h | h
  · subst h
    exact ⟨by decide, by decide, by decide, by decide⟩
  · have hw := canonWordChar_word c h
    have hu := canonWordChar_upper c h
    refine ⟨by rw [hw]; rfl, ?_, hu, ?_⟩
    · have h1 : (c == '&') = false := by
        cases hb : (c == '&') with
        | false => rfl
        | true => rw [eq_of_beq hb] at hw; exact absurd hw (by decide)
      have h2 : (c == '+') = false := by
        cases hb : (c == '+') with
        | false => rfl
        | true => rw [eq_of_beq hb] at hw; exact absurd hw (by decide)
      rw [h1, h2]
      rfl
    · cases hb : (c.toUpper == ':') with
      | false => rfl
      | true =>
        exfalso
        rw [hu] at hb
        rw [eq_of_beq hb] at hw
        exact absurd hw (by decide)

theorem punctToSpace_id (s : PyStr) (h : ∀ c ∈ s, c = ' ' ∨ canonWordChar c = true) :
    punctToSpace s = s := by
  unfold punctToSpace
  have h2 : ∀ c ∈ s, (if isWordChar c || isPySpace c then c else ' ') = id c := by
    intro c hc
    rw [if_pos ((canonOrSpace_facts c (h c hc)).1)]
    rfl
  rw [List.map_congr_left h2, List.map_id]

theorem replaceAndPlus_id : ∀ s : PyStr, (∀ c ∈ s, c = ' ' ∨ canonWordChar c = true) →
    replaceAndPlus s = s := by
  intro s
  induction s with
  | nil => intro _; rfl
  | cons c s2 ih =>
    intro h
    have hc := (canonOrSpace_facts c (h c (List.mem_cons_self c s2))).2.1
    unfold replaceAndPlus
    rw [List.flatMap_cons, hc, if_neg Bool.false_ne_true]
    have ih2 := ih (fun e he => h e (List.mem_cons_of_mem c he))
    unfold replaceAndPlus at ih2
    rw [ih2]
    rfl

theorem pyUpper_id (s : PyStr) (h : ∀ c ∈ s, c = ' ' ∨ canonWordChar c = true) :
    pyUpper s = s := by
  unfold pyUpper
  have h2 : ∀ c ∈ s, Char.toUpper c = id c := fun c hc => (canonOrSpace_facts c (h c hc)).2.2.1
  rw [List.map_congr_left h2, List.map_id]

theorem pyStartsWith_colon3 (x y : Char) (cs : PyStr)
    (h : ∀ c ∈ cs, (c.toUpper == ':') = false) :
    pyStartsWith (pyUpper cs) [x, y, ':'] = false := by
  rcases cs with _ | ⟨c1, _ | ⟨c2, _ | ⟨c3, rest⟩⟩⟩
  · rfl
  · simp [pyUpper, pyStartsWith]
  · simp [pyUpper, pyStartsWith]
  · have h3 := h c3 (by simp)
    simp [pyUpper, pyStartsWith, h3]

theorem stripMark_colon3_id (x y : Char) (cs : PyStr)
    (h : ∀ c ∈ cs, (c.toUpper == ':') = false) :
    stripMark [x, y, ':'] cs = cs := by
  unfold stripMark
  rw [pyStartsWith_colon3 x y cs h, if_neg Bool.false_ne_true]

/-- A name without (case-insensitive) colons passes the region-mark loop
unchanged. -/
theorem stripRegionMarks_id (cs : PyStr)
    (h : ∀ c ∈ cs, (c.toUpper == ':') = false) :
    stripRegionMarks cs = cs := by
  unfold stripRegionMarks
  have e1 : stripMark "UK:".toList cs = cs := by
    rw [(by decide : "UK:".toList = ['U', 'K', ':'])]
    exact stripMark_colon3_id 'U' 'K' cs h
  have e2 : stripMark "US:".toList cs = cs := by
    rw [(by decide : "US:".toList = ['U', 'S', ':'])]
    exact stripMark_colon3_id 'U' 'S' cs h
  have e3 : stripMark "IN:".toList cs = cs := by
    rw [(by decide : "IN:".toList = ['I', 'N', ':'])]
    exact stripMark_colon3_id 'I' 'N' cs h
  have e4 : stripMark "CA:".toList cs = cs := by
    rw [(by decide : "CA:".toList = ['C', 'A', ':'])]
    exact stripMark_colon3_id 'C' 'A' cs h
  rw [e1, e2, e3, e4]

theorem tryRevToks_nil (toks : List PyStr) (h : ∀ t ∈ toks, t ≠ []) :
    tryRevToks toks [] = none := by
  induction toks with
  | nil => rfl
  | cons t ts ih =>
    have ht : t.reverse ≠ [] := by
      simp only [ne_eq, List.reverse_eq_nil_iff]
      exact h t (List.mem_cons_self t ts)
    obtain ⟨c, t2, hc⟩ := List.exists_cons_of_ne_nil ht
    simp only [tryRevToks, hc, matchTokRev]
    exact ih (fun u hu => h u (List.mem_cons_of_mem t hu))

theorem remTrailTok_eq_of_none (toks : List PyStr) (allowWs : Bool) (cs : PyStr)
    (h : tryRevToks toks
      (if allowWs then (cs.reverse.dropWhile isPySpace) else cs.reverse) = none) :
    remTrailTok toks allowWs cs = cs := by
  show (match tryRevToks toks
      (if allowWs then (cs.reverse.dropWhile isPySpace) else cs.reverse) with
    | some r3 => r3.reverse
    | none => cs) = cs
  rw [h]

/-- A trailing-token pass leaves a space-joined list of fully-reduced words
unchanged when its last word is none of the listed tokens. -/
theorem remTrailTok_id (toks : List PyStr) (allowWs : Bool) (ws : List PyStr)
    (hws : ∀ w ∈ ws, w ≠ [] ∧ ∀ c ∈ w, canonWordChar c = true)
    (htoks : ∀ t ∈ toks, t ≠ [] ∧ ∀ c ∈ t, isPySpace c = false)
    (hlast : ∀ t ∈ toks, ws.getLast? ≠ some t) :
    remTrailTok toks allowWs (joinWords ws) = joinWords ws := by
  apply remTrailTok_eq_of_none
  cases ws using List.reverseRecOn with
  | nil =>
    have h2 : (if allowWs then (List.dropWhile isPySpace []) else []) = ([] : PyStr) := by
      cases allowWs <;> rfl
    show tryRevToks toks (if allowWs then (List.dropWhile isPySpace []) else []) = none
    rw [h2]
    exact tryRevToks_nil toks (fun t ht => (htoks t ht).1)
  | append_singleton ws0 w =>
    obtain ⟨hw0, hwc⟩ := hws w (by simp)
    have hrev : (joinWords (ws0 ++ [w])).reverse
        = joinWords (w.reverse :: ws0.reverse.map List.reverse) := by
      rw [joinWords_reverse (ws0 ++ [w])]
      congr 1
      simp
    obtain ⟨X, hX, hXs⟩ := joinWords_cons_decomp w.reverse (ws0.reverse.map List.reverse)
    obtain ⟨c, wt, hc⟩ := List.exists_cons_of_ne_nil (show w.reverse ≠ [] by
      simp only [ne_eq, List.reverse_eq_nil_iff]; exact hw0)
    have hcmem : c ∈ w := by
      rw [← List.mem_reverse, hc]
      exact List.mem_cons_self c wt
    have hcs : isPySpace c = false := isWordChar_not_space c (canonWordChar_word c (hwc c hcmem))
    have hshape : (joinWords (ws0 ++ [w])).reverse = w.reverse ++ X := by
      rw [hrev, hX]
    have hr1 : (if allowWs then ((joinWords (ws0 ++ [w])).reverse.dropWhile isPySpace)
        else (joinWords (ws0 ++ [w])).reverse) = w.reverse ++ X := by
      cases allowWs with
      | false => exact hshape
      | true =>
        show (joinWords (ws0 ++ [w])).reverse.dropWhile isPySpace = w.reverse ++ X
        rw [hshape, hc, List.cons_append, List.dropWhile_cons, hcs, if_neg Bool.false_ne_true]
    rw [hr1]
    apply tryRevToks_eq_none
    intro t ht
    rw [matchTokRev_eq_matchTok]
    obtain ⟨ht0, htsp⟩ := htoks t ht
    have hwt : w ≠ t := by
      intro he
      exact hlast t ht (by rw [List.getLast?_concat, he])
    exact matchTok_at_word t.reverse w.reverse X
      (by simpa using ht0)
      (fun d hd => htsp d (List.mem_reverse.mp hd))
      (by simpa using hw0)
      (fun d hd => hwc d (List.mem_reverse.mp hd))
      (fun he => hwt (by
        have h2 := congrArg List.reverse he
        simpa using h2))
      hXs

/-- Unpacking the decidable `fullyReduced` predicate into the word-level
facts used by the stage lemmas. -/
theorem fullyReduced_unpack (s : PyStr) (h : fullyReduced s = true) :
    joinWords (splitWords s) = s ∧
    (∀ w ∈ splitWords s, (w ≠ [] ∧ ∀ c ∈ w, canonWordChar c = true) ∧
      qualWordList.contains w = false) ∧
    (∀ t ∈ genericWordList, (splitWords s).getLast? ≠ some t) := by
  unfold fullyReduced at h
  rw [Bool.and_eq_true, Bool.and_eq_true] at h
  obtain ⟨⟨h1, h2⟩, h3⟩ := h
  refine ⟨eq_of_beq h1, ?_, ?_⟩
  · intro w hw
    have hx := List.all_eq_true.mp h2 w hw
    rw [Bool.and_eq_true] at hx
    obtain ⟨hcw, hnq⟩ := hx
    unfold canonWord at hcw
    rw [Bool.and_eq_true] at hcw
    obtain ⟨hne, hall⟩ := hcw
    refine ⟨⟨?_, fun c hc => List.all_eq_true.mp hall c hc⟩, ?_⟩
    · intro hnil
      subst hnil
      exact absurd hne (by decide)
    · cases hq : qualWordList.contains w with
      | false => rfl
      | true => rw [hq] at hnq; exact absurd hnq (by decide)
  · intro t ht heq
    rw [heq] at h3
    have hco : genericWordList.contains t = true := List.elem_eq_true_of_mem ht
    have h4 : (!genericWordList.contains t) = true := h3
    rw [hco] at h4
    exact absurd h4 (by decide)

/-- `clean_channel_name` fixes every fully-reduced name. -/
theorem cleanChannelName_of_reduced (s : PyStr) (h : fullyReduced s = true) :
    cleanChannelName s = s := by
  obtain ⟨hs, hwords, hlastg⟩ := fullyReduced_unpack s h
  have hchars : ∀ c ∈ s, c = ' ' ∨ canonWordChar c = true := by
    intro c hc
    rw [← hs] at hc
    rcases mem_joinWords (splitWords s) c hc with h1 | ⟨w, hw, hcw⟩
    · exact Or.inl h1
    · exact Or.inr ((hwords w hw).1.2 c hcw)
  have hwords1 : ∀ w ∈ splitWords s, w ≠ [] ∧ ∀ c ∈ w, canonWordChar c = true :=
    fun w hw => (hwords w hw).1
  have e1 : stripRegionMarks s = s :=
    stripRegionMarks_id s (fun c hc => (canonOrSpace_facts c (hchars c hc)).2.2.2)
  have e2 : collapseWs s = s := hs
  have e3 : remQualB s = s := by
    unfold remQualB
    apply remQualBGo_of_safe
    rw [← hs]
    exact (qualSafe_joinWords (splitWords s) hwords).1
  have e4 : remTrailQual s = s := by
    unfold remTrailQual
    rw [← hs]
    refine remTrailTok_id _ _ _ hwords1 (by decide) ?_
    intro t ht heq
    have htm : t ∈ splitWords s := List.mem_of_getLast?_eq_some heq
    have hqt : qualWordList.contains t = false := (hwords t htm).2
    have htq : t ∈ qualWordList := by
      simp only [List.mem_cons, List.not_mem_nil, or_false] at ht
      rcases ht with h1 | h1 | h1 | h1 | h1 <;> subst h1 <;> decide
    have hco : qualWordList.contains t = true := List.elem_eq_true_of_mem htq
    rw [hqt] at hco
    exact Bool.false_ne_true hco
  have e5 : remTrailGenericClean s = s := by
    unfold remTrailGenericClean
    rw [← hs]
    refine remTrailTok_id _ _ _ hwords1 (by decide) ?_
    intro t ht heq
    exact hlastg t ht heq
  have e6 : replaceAndPlus s = s := replaceAndPlus_id s hchars
  have e7 : punctToSpace s = s := punctToSpace_id s hchars
  have e9 : pyStrip s = s := by
    rw [← hs]
    exact pyStrip_joinWords (splitWords s) hwords1
  have e10 : pyUpper s = s := pyUpper_id s hchars
  show pyUpper (pyStrip (collapseWs (punctToSpace (replaceAndPlus (remTrailGenericClean
    (remTrailQual (remQualB (collapseWs (stripRegionMarks s))))))))) = s
  rw [e1, e2, e3, e4, e5, e6, e7, e2, e9, e10]

/-- `normalize_channel_name` fixes every fully-reduced name. -/
theorem normalizeChannelName_of_reduced (s : PyStr) (h : fullyReduced s = true) :
    normalizeChannelName s = s := by
  obtain ⟨hs, hwords, hlastg⟩ := fullyReduced_unpack s h
  have hchars : ∀ c ∈ s, c = ' ' ∨ canonWordChar c = true := by
    intro c hc
    rw [← hs] at hc
    rcases mem_joinWords (splitWords s) c hc with h1 | ⟨w, hw, hcw⟩
    · exact Or.inl h1
    · exact Or.inr ((hwords w hw).1.2 c hcw)
  have hwords1 : ∀ w ∈ splitWords s, w ≠ [] ∧ ∀ c ∈ w, canonWordChar c = true :=
    fun w hw => (hwords w hw).1
  have e10 : pyUpper s = s := pyUpper_id s hchars
  have ew : remWsQual s = s := by
    unfold remWsQual
    apply remWsQualGo_of_safe
    rw [← hs]
    exact wsQualSafe_joinWords (splitWords s) hwords
  have en : remTrailGenericNorm s = s := by
    unfold remTrailGenericNorm
    rw [← hs]
    refine remTrailTok_id _ _ _ hwords1 (by decide) ?_
    intro t ht heq
    refine hlastg t ?_ heq
    simp only [List.mem_cons, List.not_mem_nil, or_false] at ht
    rcases ht with h1 | h1 | h1 <;> subst h1 <;> decide
  have e7 : punctToSpace s = s := punctToSpace_id s hchars
  have e2 : collapseWs s = s := hs
  show collapseWs (punctToSpace (remTrailGenericNorm (remWsQual (pyUpper s)))) = s
  rw [e10, ew, en, e7, e2]

/-- **C5** (amended): the claimed unconditional idempotence is false — a
second application can strip a further trailing generic token (see
`claimC5_counterexample`).  The amended claim holds: whenever the first
application's output is fully reduced (canonically spaced upper-case words
of word characters, none a removable quality token, the last not a generic
suffix token), the second application is the identity — for both
`clean_channel_name` and `normalize_channel_name`. -/
theorem claimC5_amended (x : PyStr)
    (hc : fullyReduced (cleanChannelName x) = true)
    (hn : fullyReduced (normalizeChannelName x) = true) :
    cleanChannelName (cleanChannelName x) = cleanChannelName x ∧
    normalizeChannelName (normalizeChannelName x) = normalizeChannelName x :=
  ⟨cleanChannelName_of_reduced (cleanChannelName x) hc,
   normalizeChannelName_of_reduced (normalizeChannelName x) hn⟩

/-- **C5** counterexample to the original claim: on `"A TV NETWORK"` neither
normalizer is idempotent — one application leaves `"A TV"` (a single trailing
suffix token is removed per pass), and the second application strips the now
trailing `TV`, leaving `"A"`. -/
theorem claimC5_counterexample :
    cleanChannelName (cleanChannelName "A TV NETWORK".toList) ≠
      cleanChannelName "A TV NETWORK".toList ∧
    normalizeChannelName (normalizeChannelName "A TV NETWORK".toList) ≠
      normalizeChannelName "A TV NETWORK".toList := by
  constructor
  · decide
  · decide

/-- Witness for the amended C5 at the concrete input `"UK: ESPN 4K"`: both
once-normalized forms are fully reduced, and the second application of each
normalizer is the identity on them. -/
theorem claimC5_witness :
    (fullyReduced (cleanChannelName "UK: ESPN 4K".toList) = true ∧
      fullyReduced (normalizeChannelName "UK: ESPN 4K".toList) = true) ∧
    cleanChannelName (cleanChannelName "UK: ESPN 4K".toList) =
      cleanChannelName "UK: ESPN 4K".toList ∧
    normalizeChannelName (normalizeChannelName "UK: ESPN 4K".toList) =
      normalizeChannelName "UK: ESPN 4K".toList :=
  ⟨⟨by decide, by decide⟩,
   claimC5_amended "UK: ESPN 4K".toList (by decide) (by decide)⟩

end HomeEpg
